import Mathlib

/-!
# Single-linkage orchestrator (raft/sparse/hierarchy/single_linkage.hpp)

A shallow embedding of the function template single_linkage and of the record
linkage_output it receives, followed by the properties of the orchestrator.

Conventions of the embedding.

* The template parameters value_idx and value_t are the type parameters I and V;
  the enumeration raft::distance::DistanceType, declared outside this header, is
  the type parameter M.
* A device buffer and the memory behind a raw pointer are lists. A buffer that is
  handed to a callee freshly allocated with a size (its content is not defined) is
  handed over as its number of entries; a buffer created EMPTY for a callee to fill
  is the callee's result and no argument. Buffer sizes are bounded by the memory, far
  below 2^63, so n_edges * 2 is the product of natural numbers.
* The four pipeline stages live in other headers. They are the fields of a
  structure Stages, one function per call site, with the arguments of the call.
  A stage may throw, so each returns an Except value. The first three stages write
  only buffers local to single_linkage, which are gone when they throw; the last one
  writes through the raw pointer out->labels, so its error carries, next to the
  message, the content it left behind that pointer.
* The handle only supplies the stream and the allocator; it carries no data of
  the computation and is not represented.
* A run of single_linkage is a record (Run) of how the call ended, of the output
  record as the caller finds it afterwards, and of the stage calls made, in order.
-/

namespace raft
namespace hierarchy

/-- Enumeration LinkageDistance of the header: the way the distance graph is built. -/
inductive LinkageDistance where
  | PAIRWISE
  | KNN_GRAPH
  deriving DecidableEq, Repr

/-- Record linkage_output of the header. The two pointer members are represented by
the memory they point to. -/
structure linkage_output (I : Type) where
  m : I
  n_clusters : I
  n_leaves : I
  n_connected_components : I
  labels : List I
  children : List I
  deriving DecidableEq, Repr

/-- Largest value of the 32-bit signed type int. -/
def INT_MAX : Int := 2 ^ 31 - 1

/-- Smallest value of the 32-bit signed type int. -/
def INT_MIN : Int := - 2 ^ 31

/-- Number of values of the 64-bit unsigned type size_t. -/
def SIZE_T_RANGE : Nat := 2 ^ 64

/-- Values an int variable can hold. -/
def is_int (x : Int) : Prop := INT_MIN ≤ x ∧ x ≤ INT_MAX

/-- Values a size_t variable can hold. -/
def is_size_t (x : Nat) : Prop := x < SIZE_T_RANGE

instance (x : Int) : Decidable (is_int x) := by
  unfold is_int; infer_instance

instance (x : Nat) : Decidable (is_size_t x) := by
  unfold is_size_t; infer_instance

/-- Conversion of an int operand to size_t, as the usual arithmetic conversions do in
the comparison of an int with a size_t: the value modulo 2^64. -/
def int_to_size_t (x : Int) : Nat := (x % (SIZE_T_RANGE : Int)).toNat

/-- Text of the message in the ASSERT of single_linkage. -/
def n_clusters_message : String :=
  "n_clusters must be less than or equal to the number of data points"

/-- Modelled from the spec: the macro ASSERT (raft error header, outside
single_linkage.hpp).
The spec calls its failure a fatal precondition violation, reported immediately:
when the condition is false the call ends with an error that carries the message. -/
def ASSERT (check : Bool) (msg : String) : Except String Unit :=
  if check then Except.ok () else Except.error msg

/-- One call of a pipeline stage, with the arguments the orchestrator passes. For
build_dendrogram_host the last three numbers are the numbers of entries of the
freshly allocated buffers children, out_delta and out_size. -/
inductive StageCall (I V M : Type) where
  | get_distance_graph (dist_type : LinkageDistance) (X : List V) (m n : Nat)
      (metric : M) (c : Int)
  | build_sorted_mst (indptr indices : List I) (pw_dists : List V) (m nnz : Nat)
  | build_dendrogram_host (rows cols : List I) (data : List V) (n_edges : Nat)
      (children_size out_delta_size out_size_size : Nat)
  | extract_flattened_clusters (labels children : List I) (n_clusters : Int) (m : Nat)
  deriving DecidableEq, Repr

/-- The four stages single_linkage calls, which are defined in other headers
(distance graph, sorted MST, dendrogram, flattening). Each field has the arguments
of its call site and returns what the call leaves in its output buffers:
(indptr, indices, pw_dists), (mst_rows, mst_cols, mst_data),
(children, out_delta, out_size) and the labels. When extract_flattened_clusters throws,
its error is the message together with the labels memory as the stage left it. -/
structure Stages (I V M : Type) where
  get_distance_graph : LinkageDistance → List V → Nat → Nat → M → Int →
    Except String (List I × List I × List V)
  build_sorted_mst : List I → List I → List V → Nat → Nat →
    Except String (List I × List I × List V)
  build_dendrogram_host : List I → List I → List V → Nat → Nat → Nat → Nat →
    Except String (List I × List V × List I)
  extract_flattened_clusters : List I → List I → Int → Nat →
    Except (String × List I) (List I)

/-- Outcome of one call of single_linkage: how it ended (normally, or with the message
of the error thrown), the output record afterwards, and the stage calls made. -/
structure Run (I V M : Type) where
  status : Except String Unit
  out : linkage_output I
  calls : List (StageCall I V M)

/-- Function template single_linkage of the header, statement by statement:
the ASSERT on n_clusters and m, then the distance graph, the sorted MST (with
nnz = indices.size()), n_edges = mst_rows.size(), the three buffers of
n_edges * 2, n_edges and n_edges entries, the dendrogram, and the flattening into
out->labels. Nothing else of the record is assigned. When the flattening throws, the
labels memory is what that stage left in it. -/
def single_linkage {I V M : Type} (S : Stages I V M) (dist_type : LinkageDistance)
    (X : List V) (m n : Nat) (metric : M) (out : linkage_output I) (c : Int)
    (n_clusters : Int) : Run I V M :=
  match ASSERT (decide (int_to_size_t n_clusters ≤ m)) n_clusters_message with
  | Except.error e => { status := Except.error e, out := out, calls := [] }
  | Except.ok _ =>
    let call1 := StageCall.get_distance_graph dist_type X m n metric c
    match S.get_distance_graph dist_type X m n metric c with
    | Except.error e => { status := Except.error e, out := out, calls := [call1] }
    | Except.ok (indptr, indices, pw_dists) =>
      let call2 := StageCall.build_sorted_mst indptr indices pw_dists m indices.length
      match S.build_sorted_mst indptr indices pw_dists m indices.length with
      | Except.error e =>
        { status := Except.error e, out := out, calls := [call1, call2] }
      | Except.ok (mst_rows, mst_cols, mst_data) =>
        let n_edges := mst_rows.length
        let call3 := StageCall.build_dendrogram_host mst_rows mst_cols mst_data n_edges
          (n_edges * 2) n_edges n_edges
        match S.build_dendrogram_host mst_rows mst_cols mst_data n_edges
            (n_edges * 2) n_edges n_edges with
        | Except.error e =>
          { status := Except.error e, out := out, calls := [call1, call2, call3] }
        | Except.ok (children, _out_delta, _out_size) =>
          let call4 := StageCall.extract_flattened_clusters out.labels children
            n_clusters m
          match S.extract_flattened_clusters out.labels children n_clusters m with
          | Except.error (e, left) =>
            { status := Except.error e, out := { out with labels := left },
              calls := [call1, call2, call3, call4] }
          | Except.ok labels =>
            { status := Except.ok (), out := { out with labels := labels },
              calls := [call1, call2, call3, call4] }

/-! ## The four stages, modelled from the specification

The headers that define the stages lie outside single_linkage.hpp. The definitions below
follow the component descriptions of the specification (sections 3, 4.1 to 4.4 and 6),
with value_idx = Nat. What the specification leaves to external collaborators is a
field of Collaborators. -/

/-- Modelled from the spec: the external collaborators of section 6 (the metric kernels
and the neighbour-graph provider, whose code lies outside the header) together with the way
a bridge weight is obtained. The field distance gives the distance of points i and j of
the point set X (m points, n columns) under a metric; neighbor_graph gives the sparse
graph (indptr, indices, weights) for neighbourhood size c; above gives, for the real
edge weights observed, the weight assigned to bridge edges. -/
structure Collaborators (V M : Type) where
  distance : List V → Nat → Nat → M → Nat → Nat → V
  neighbor_graph : List V → Nat → Nat → M → Int → List Nat × List Nat × List V
  above : List V → V

/-- Modelled from the spec: an entry of the MST Edge List of section 3, a triple
(row, col, weight). -/
structure Edge (V : Type) where
  row : Nat
  col : Nat
  weight : V
  deriving DecidableEq, Repr

/-- Modelled from the spec: the Graph Builder of section 4.1 (connectivities header, outside
single_linkage.hpp). Pairwise mode: all m * m distances, a fully dense graph in compressed
sparse row form (row i holds the columns 0 .. m-1). KNN-graph mode: the graph of the
neighbour-graph provider for neighbourhood size c. -/
def graph_builder {V M : Type} (K : Collaborators V M) (dist_type : LinkageDistance)
    (X : List V) (m n : Nat) (metric : M) (c : Int) : List Nat × List Nat × List V :=
  match dist_type with
  | LinkageDistance.PAIRWISE =>
    ((List.range (m + 1)).map (fun i => i * m),
     (List.range m).flatMap (fun _ => List.range m),
     (List.range m).flatMap (fun i => (List.range m).map (fun j => K.distance X m n metric i j)))
  | LinkageDistance.KNN_GRAPH => K.neighbor_graph X m n metric c

/-- Modelled from the spec: the edges a Sparse Graph of section 3 stores. Row i holds the
entries indptr[i] .. indptr[i+1] - 1 of indices and weights; only the first nnz entries
exist. -/
def csr_edges {V : Type} (indptr indices : List Nat) (weights : List V) (m nnz : Nat) :
    List (Edge V) :=
  (List.range m).flatMap fun i =>
    (List.range (indptr.getD (i + 1) 0 - indptr.getD i 0)).filterMap fun k =>
      let pos := indptr.getD i 0 + k
      if pos < nnz then
        match indices[pos]?, weights[pos]? with
        | some j, some w => some { row := i, col := j, weight := w }
        | _, _ => none
      else none

/-- Modelled from the spec: the fixed order of section 3 on edges, by
(weight, min(row, col), max(row, col)). -/
def edge_le {V : Type} [LinearOrder V] (a b : Edge V) : Prop :=
  a.weight < b.weight ∨ (a.weight = b.weight ∧
    (min a.row a.col < min b.row b.col ∨
      (min a.row a.col = min b.row b.col ∧ max a.row a.col ≤ max b.row b.col)))

instance {V : Type} [LinearOrder V] : DecidableRel (edge_le : Edge V → Edge V → Prop) := by
  intro a b; unfold edge_le; infer_instance

/-- Modelled from the spec: current cluster (or component) id of a point in the mapping
from point ids to ids of sections 4.2 and 4.3. -/
def find (cur : List Nat) (p : Nat) : Nat := cur.getD p p

/-- Modelled from the spec: reassignment of sections 4.2 and 4.3: every point whose
current id is a or b gets the id c. -/
def relabel (cur : List Nat) (a b c : Nat) : List Nat :=
  cur.map fun x => if x = a ∨ x = b then c else x

/-- Modelled from the spec: the cheapest of the edges that leave component comp_id (one
endpoint in it, the other in a different component), ties broken by the fixed order. -/
def cheapest {V : Type} [LinearOrder V] (comp : List Nat) (edges : List (Edge V))
    (comp_id : Nat) : Option (Edge V) :=
  (edges.filter fun e => find comp e.row ≠ find comp e.col ∧
      (find comp e.row = comp_id ∨ find comp e.col = comp_id)).foldl
    (fun best e =>
      match best with
      | none => some e
      | some b => if edge_le b e then some b else some e)
    none

/-- Modelled from the spec: the representatives of the current components, ascending. -/
def representatives (comp : List Nat) : List Nat :=
  (List.range comp.length).filter fun i => find comp i = i

/-- Modelled from the spec: contraction of one selected edge: the components of its two
endpoints are united (the smaller representative is kept) and the edge joins the tree;
an edge whose endpoints are already in one component is dropped. -/
def contract_edge {V : Type} (st : List Nat × List (Edge V)) (e : Edge V) :
    List Nat × List (Edge V) :=
  if find st.1 e.row = find st.1 e.col then st
  else (relabel st.1 (find st.1 e.row) (find st.1 e.col)
          (min (find st.1 e.row) (find st.1 e.col)), st.2 ++ [e])

/-- Modelled from the spec: the rounds of section 4.2. In a round every current
component selects its cheapest outgoing edge and all selected edges are contracted; the
rounds stop when no component has an outgoing edge. The first argument bounds the
number of rounds. -/
def boruvka_rounds {V : Type} [LinearOrder V] (edges : List (Edge V)) :
    Nat → List Nat × List (Edge V) → List Nat × List (Edge V)
  | 0, st => st
  | fuel + 1, st =>
    match (representatives st.1).filterMap (cheapest st.1 edges) with
    | [] => st
    | e :: sel => boruvka_rounds edges fuel ((e :: sel).foldl contract_edge st)

/-- Modelled from the spec: the bridge edges of the disconnection policy of section 4.2:
the representatives of the remaining components, ascending, each joined to the next,
with the weight w. -/
def bridge_edges {V : Type} (w : V) : List Nat → List (Edge V)
  | a :: b :: rest => { row := a, col := b, weight := w } :: bridge_edges w (b :: rest)
  | _ => []

/-- Modelled from the spec: the spanning tree of section 4.2 before the final sort: the
rounds on the real edges (self-loops ignored), then the bridges between the components
that remain. The result is the component mapping and the tree edges. -/
def spanning_tree {V M : Type} [LinearOrder V] (K : Collaborators V M)
    (indptr indices : List Nat) (weights : List V) (m nnz : Nat) :
    List Nat × List (Edge V) :=
  let edges := (csr_edges indptr indices weights m nnz).filter fun e => e.row ≠ e.col
  let st := boruvka_rounds edges m (List.range m, [])
  (bridge_edges (K.above (edges.map Edge.weight)) (representatives st.1)).foldl
    contract_edge st

/-- Modelled from the spec: the MST Constructor of section 4.2 (mst header, outside
single_linkage.hpp), with the outputs of the call site: the rows, columns and weights
of the tree edges, sorted ascending by the fixed order. -/
def mst_constructor {V M : Type} [LinearOrder V] (K : Collaborators V M)
    (indptr indices : List Nat) (weights : List V) (m nnz : Nat) :
    List Nat × List Nat × List V :=
  let sorted := List.insertionSort edge_le (spanning_tree K indptr indices weights m nnz).2
  (sorted.map Edge.row, sorted.map Edge.col, sorted.map Edge.weight)

/-- Modelled from the spec: number of original points under a node of the dendrogram:
1 for a leaf (id below m), the recorded size for an internal node. -/
def node_size (m : Nat) (sizes : List Nat) (x : Nat) : Nat :=
  if x < m then 1 else sizes.getD (x - m) 0

/-- Modelled from the spec: text of the fatal error of the dendrogram builder of section
4.3 for an edge whose endpoints are in one cluster. -/
def cycle_message : String := "MST edge joins a cluster with itself"

/-- Modelled from the spec: text of the fatal error of the dendrogram builder for an edge
with an endpoint that is no point id (a malformed edge list). -/
def endpoint_message : String := "MST edge endpoint is not a point id"

/-- Modelled from the spec: the merge loop of the Dendrogram Builder of section 4.3.
The edges are processed in order; for edge (u, v, w) the current cluster ids a and b of u
and v are looked up, the next internal node m + i gets the children a and b, the delta w
and the size of a plus the size of b, and every point of a or b is reassigned to the new
node. An edge whose endpoints are in one cluster is a fatal error, and so is an endpoint
that is no point id. The result lists one entry (child_a, child_b, delta, size) per
merge. -/
def merge_edges {V : Type} (m : Nat) :
    List Nat → List Nat → List (Edge V) → Except String (List (Nat × Nat × V × Nat))
  | _, _, [] => Except.ok []
  | cur, sizes, e :: es =>
    match cur[e.row]?, cur[e.col]? with
    | some a, some b =>
      if a = b then Except.error cycle_message
      else
        let sz := node_size m sizes a + node_size m sizes b
        match merge_edges m (relabel cur a b (m + sizes.length)) (sizes ++ [sz]) es with
        | Except.error err => Except.error err
        | Except.ok rest => Except.ok ((a, b, e.weight, sz) :: rest)
    | _, _ => Except.error endpoint_message

/-- Modelled from the spec: the edge list the arrays rows, cols and data hold in their
first n_edges entries. -/
def edges_of {V : Type} (rows cols : List Nat) (data : List V) (n_edges : Nat) :
    List (Edge V) :=
  ((rows.zip (cols.zip data)).take n_edges).map fun t =>
    { row := t.1, col := t.2.1, weight := t.2.2 }

/-- Modelled from the spec: the Dendrogram Builder of section 4.3 (agglomerative header,
outside single_linkage.hpp), with the arguments of the call site. The n_edges edges span
n_edges + 1 points. The outputs are children (flattened, two entries per merge), the
deltas and the sizes. -/
def dendrogram_builder {V : Type} (rows cols : List Nat) (data : List V) (n_edges : Nat)
    (_children_size _out_delta_size _out_size_size : Nat) :
    Except String (List Nat × List V × List Nat) :=
  match merge_edges (n_edges + 1) (List.range (n_edges + 1)) []
      (edges_of rows cols data n_edges) with
  | Except.error err => Except.error err
  | Except.ok merges =>
    Except.ok (merges.flatMap (fun t => [t.1, t.2.1]), merges.map (fun t => t.2.2.1),
      merges.map (fun t => t.2.2.2))

/-- Modelled from the spec: the merges a flattened children array records, in order. -/
def child_pairs : List Nat → List (Nat × Nat)
  | a :: b :: rest => (a, b) :: child_pairs rest
  | _ => []

/-- Modelled from the spec: the clusters left by the given merges: starting from cur,
merge number i reassigns the points of its two children to the node m + i. -/
def replay_merges (m : Nat) : Nat → List Nat → List (Nat × Nat) → List Nat
  | _, cur, [] => cur
  | i, cur, (a, b) :: rest => replay_merges m (i + 1) (relabel cur a b (m + i)) rest

/-- Modelled from the spec: the Cluster Extractor of section 4.4 (agglomerative header,
outside single_linkage.hpp), with the arguments of the call site. The n_clusters - 1 merges
built last (those of largest delta) are removed; every point is labelled with the root
of the subtree it falls under, and the roots, ascending, are renumbered 0, 1, ... -/
def cluster_extractor (_labels children : List Nat) (n_clusters : Int) (m : Nat) :
    List Nat :=
  let kept := (child_pairs children).take ((m - 1) - (n_clusters.toNat - 1))
  let cur := replay_merges m 0 (List.range m) kept
  let roots := (List.range (2 * m)).filter fun r => r ∈ cur
  cur.map fun r => roots.indexOf r

/-- Modelled from the spec: the four stages of the specification as the stages the
orchestrator calls. -/
def spec_stages {V M : Type} [LinearOrder V] (K : Collaborators V M) : Stages Nat V M where
  get_distance_graph := fun dist_type X m n metric c =>
    Except.ok (graph_builder K dist_type X m n metric c)
  build_sorted_mst := fun indptr indices weights m nnz =>
    Except.ok (mst_constructor K indptr indices weights m nnz)
  build_dendrogram_host := dendrogram_builder
  extract_flattened_clusters := fun labels children n_clusters m =>
    Except.ok (cluster_extractor labels children n_clusters m)

/-- Example collaborators on points of one coordinate with natural-number weights: the
distance of two points is the absolute difference, the neighbour graph has no edge,
and a bridge weighs one more than the largest real weight. -/
def line_collaborators : Collaborators Nat Unit where
  distance := fun X _ _ _ i j => (X.getD i 0 - X.getD j 0) + (X.getD j 0 - X.getD i 0)
  neighbor_graph := fun _ m _ _ _ => (List.replicate (m + 1) 0, [], [])
  above := fun ws => ws.foldl max 0 + 1

/-- Example of a caller's output record before the call: scalar members zero, labels and
children buffers of the given content. -/
def fresh_output (labels children : List Nat) : linkage_output Nat :=
  { m := 0, n_clusters := 0, n_leaves := 0, n_connected_components := 0,
    labels := labels, children := children }

/-- Modelled from the spec: the count the MST Constructor of section 4.2 reports next to
the edge list: the number of components that remain when the real edges are exhausted,
before any bridge is added. The call site in single_linkage has no output for it. -/
def disconnected_components {V : Type} [LinearOrder V]
    (indptr indices : List Nat) (weights : List V) (m nnz : Nat) : Nat :=
  let edges := (csr_edges indptr indices weights m nnz).filter fun e => e.row ≠ e.col
  (representatives (boruvka_rounds edges m (List.range m, [])).1).length

/-- Example run: four points 0, 1, 10, 11 on a line, pairwise mode, two clusters, on an
output record whose labels buffer holds 9s and whose children buffer holds 7s. -/
def four_point_run : Run Nat Nat Unit :=
  single_linkage (spec_stages line_collaborators) LinkageDistance.PAIRWISE
    [0, 1, 10, 11] 4 1 () (fresh_output [9, 9, 9, 9] [7, 7, 7, 7, 7, 7]) 0 2

/-- Example run: the same four points in KNN-graph mode (the example neighbour graph has
no edge, so its four points are four components), three clusters. -/
def four_component_run : Run Nat Nat Unit :=
  single_linkage (spec_stages line_collaborators) LinkageDistance.KNN_GRAPH
    [0, 1, 10, 11] 4 1 () (fresh_output [9, 9, 9, 9] [7, 7, 7, 7, 7, 7]) 0 3

/-! ## The runs of single_linkage case by case, and the composition of the stages -/

/-- The four stages as relations between the arguments of a call and its result. -/
structure StageRelations (I V M : Type) where
  get_distance_graph : LinkageDistance → List V → Nat → Nat → M → Int →
    Except String (List I × List I × List V) → Prop
  build_sorted_mst : List I → List I → List V → Nat → Nat →
    Except String (List I × List I × List V) → Prop
  build_dendrogram_host : List I → List I → List V → Nat → Nat → Nat → Nat →
    Except String (List I × List V × List I) → Prop
  extract_flattened_clusters : List I → List I → Int → Nat →
    Except (String × List I) (List I) → Prop

/-- Stages given as functions, seen as relations. -/
def Stages.graph {I V M : Type} (S : Stages I V M) : StageRelations I V M where
  get_distance_graph := fun d X m n metric c r => S.get_distance_graph d X m n metric c = r
  build_sorted_mst := fun indptr indices w m nnz r =>
    S.build_sorted_mst indptr indices w m nnz = r
  build_dendrogram_host := fun rows cols data k a b c r =>
    S.build_dendrogram_host rows cols data k a b c = r
  extract_flattened_clusters := fun labels children k m r =>
    S.extract_flattened_clusters labels children k m = r

/-- The runs of single_linkage when the stages are relations: the same statements as in
single_linkage, one constructor per way the call can end (the ASSERT fails, one of the
four stages throws, or the labels are written). It serves as the case analysis of a
run in the proofs. -/
inductive single_linkage_runs {I V M : Type} (R : StageRelations I V M)
    (dist_type : LinkageDistance) (X : List V) (m n : Nat) (metric : M)
    (out : linkage_output I) (c : Int) (n_clusters : Int) : Run I V M → Prop
  | assert_failed :
      ¬ int_to_size_t n_clusters ≤ m →
      single_linkage_runs R dist_type X m n metric out c n_clusters
        { status := Except.error n_clusters_message, out := out, calls := [] }
  | graph_failed (e : String) :
      int_to_size_t n_clusters ≤ m →
      R.get_distance_graph dist_type X m n metric c (Except.error e) →
      single_linkage_runs R dist_type X m n metric out c n_clusters
        { status := Except.error e, out := out,
          calls := [StageCall.get_distance_graph dist_type X m n metric c] }
  | mst_failed (indptr indices : List I) (pw_dists : List V) (e : String) :
      int_to_size_t n_clusters ≤ m →
      R.get_distance_graph dist_type X m n metric c (Except.ok (indptr, indices, pw_dists)) →
      R.build_sorted_mst indptr indices pw_dists m indices.length (Except.error e) →
      single_linkage_runs R dist_type X m n metric out c n_clusters
        { status := Except.error e, out := out,
          calls := [StageCall.get_distance_graph dist_type X m n metric c,
            StageCall.build_sorted_mst indptr indices pw_dists m indices.length] }
  | dendrogram_failed (indptr indices : List I) (pw_dists : List V)
      (mst_rows mst_cols : List I) (mst_data : List V) (e : String) :
      int_to_size_t n_clusters ≤ m →
      R.get_distance_graph dist_type X m n metric c (Except.ok (indptr, indices, pw_dists)) →
      R.build_sorted_mst indptr indices pw_dists m indices.length
        (Except.ok (mst_rows, mst_cols, mst_data)) →
      R.build_dendrogram_host mst_rows mst_cols mst_data mst_rows.length
        (mst_rows.length * 2) mst_rows.length mst_rows.length (Except.error e) →
      single_linkage_runs R dist_type X m n metric out c n_clusters
        { status := Except.error e, out := out,
          calls := [StageCall.get_distance_graph dist_type X m n metric c,
            StageCall.build_sorted_mst indptr indices pw_dists m indices.length,
            StageCall.build_dendrogram_host mst_rows mst_cols mst_data mst_rows.length
              (mst_rows.length * 2) mst_rows.length mst_rows.length] }
  | extract_failed (indptr indices : List I) (pw_dists : List V)
      (mst_rows mst_cols : List I) (mst_data : List V)
      (children : List I) (out_delta : List V) (out_size : List I) (e : String)
      (left : List I) :
      int_to_size_t n_clusters ≤ m →
      R.get_distance_graph dist_type X m n metric c (Except.ok (indptr, indices, pw_dists)) →
      R.build_sorted_mst indptr indices pw_dists m indices.length
        (Except.ok (mst_rows, mst_cols, mst_data)) →
      R.build_dendrogram_host mst_rows mst_cols mst_data mst_rows.length
        (mst_rows.length * 2) mst_rows.length mst_rows.length
        (Except.ok (children, out_delta, out_size)) →
      R.extract_flattened_clusters out.labels children n_clusters m
        (Except.error (e, left)) →
      single_linkage_runs R dist_type X m n metric out c n_clusters
        { status := Except.error e, out := { out with labels := left },
          calls := [StageCall.get_distance_graph dist_type X m n metric c,
            StageCall.build_sorted_mst indptr indices pw_dists m indices.length,
            StageCall.build_dendrogram_host mst_rows mst_cols mst_data mst_rows.length
              (mst_rows.length * 2) mst_rows.length mst_rows.length,
            StageCall.extract_flattened_clusters out.labels children n_clusters m] }
  | done (indptr indices : List I) (pw_dists : List V)
      (mst_rows mst_cols : List I) (mst_data : List V)
      (children : List I) (out_delta : List V) (out_size : List I) (labels : List I) :
      int_to_size_t n_clusters ≤ m →
      R.get_distance_graph dist_type X m n metric c (Except.ok (indptr, indices, pw_dists)) →
      R.build_sorted_mst indptr indices pw_dists m indices.length
        (Except.ok (mst_rows, mst_cols, mst_data)) →
      R.build_dendrogram_host mst_rows mst_cols mst_data mst_rows.length
        (mst_rows.length * 2) mst_rows.length mst_rows.length
        (Except.ok (children, out_delta, out_size)) →
      R.extract_flattened_clusters out.labels children n_clusters m (Except.ok labels) →
      single_linkage_runs R dist_type X m n metric out c n_clusters
        { status := Except.ok (), out := { out with labels := labels },
          calls := [StageCall.get_distance_graph dist_type X m n metric c,
            StageCall.build_sorted_mst indptr indices pw_dists m indices.length,
            StageCall.build_dendrogram_host mst_rows mst_cols mst_data mst_rows.length
              (mst_rows.length * 2) mst_rows.length mst_rows.length,
            StageCall.extract_flattened_clusters out.labels children n_clusters m] }

/-- A run that ended in the ASSERT: the error carries the message of the ASSERT, no
stage was called and the output record is the one the caller passed. -/
def rejected {I V M : Type} (r : Run I V M) (out : linkage_output I) : Prop :=
  r.status = Except.error n_clusters_message ∧ r.calls = [] ∧ r.out = out

/-- A run that went past the ASSERT into the pipeline: its first stage call is the call
of the distance graph with the arguments of the run. -/
def entered_pipeline {I V M : Type} (r : Run I V M) (dist_type : LinkageDistance)
    (X : List V) (m n : Nat) (metric : M) (c : Int) : Prop :=
  r.calls.head? = some (StageCall.get_distance_graph dist_type X m n metric c)

/-- The chain of the four stages as the specification words it (points to sparse graph
to tree edges to dendrogram to labels), each stage applied once to what the stage before
it returned: the statement that the chain, run on the inputs, passes through the given
intermediate values and ends in the given labels. -/
def forward_chain {I V M : Type} (S : Stages I V M) (dist_type : LinkageDistance)
    (X : List V) (m n : Nat) (metric : M) (old_labels : List I) (c : Int) (n_clusters : Int)
    (indptr indices : List I) (pw_dists : List V) (rows cols : List I) (data : List V)
    (children : List I) (labels : List I) : Prop :=
  S.get_distance_graph dist_type X m n metric c = Except.ok (indptr, indices, pw_dists) ∧
  S.build_sorted_mst indptr indices pw_dists m indices.length =
    Except.ok (rows, cols, data) ∧
  (∃ out_delta out_size, S.build_dendrogram_host rows cols data rows.length
    (2 * rows.length) rows.length rows.length = Except.ok (children, out_delta, out_size)) ∧
  S.extract_flattened_clusters old_labels children n_clusters m = Except.ok labels

/-! ## Notions used in the proofs about the modelled stages -/

/-- Two points are connected by a list of edges: the equivalence the edges generate. -/
def connected_by {V : Type} (es : List (Edge V)) : Nat → Nat → Prop :=
  Relation.EqvGen fun p q => ∃ e ∈ es, e.row = p ∧ e.col = q

/-- A mapping cur from the m point ids to cluster ids represents the components of the
edge list es: the edges join point ids, and two points have the same id exactly when the
edges connect them. -/
structure Represents {V : Type} (m : Nat) (cur : List Nat) (es : List (Edge V)) : Prop where
  len : cur.length = m
  valid : ∀ e ∈ es, e.row < m ∧ e.col < m
  kernel : ∀ p q, p < m → q < m → (find cur p = find cur q ↔ connected_by es p q)

/-- State of the MST construction over m points: the component mapping represents the
tree edges, every tree edge has removed one component, and every component id is a point
of its own component. -/
structure ForestState {V : Type} (m : Nat) (st : List Nat × List (Edge V)) : Prop where
  rep : Represents m st.1 st.2
  count : st.1.toFinset.card + st.2.length = m
  fixed : ∀ x ∈ st.1, x < m ∧ find st.1 x = x

/-! ## The precondition check -/

theorem int_to_size_t_of_nonneg (k : Int) (h0 : 0 ≤ k) (hk : is_int k) :
    int_to_size_t k = k.toNat := by
  unfold is_int INT_MIN INT_MAX at hk
  unfold int_to_size_t SIZE_T_RANGE
  have : k % ((2 ^ 64 : Nat) : Int) = k := by
    apply Int.emod_eq_of_lt h0
    norm_num
    omega
  rw [this]

theorem int_to_size_t_of_neg (k : Int) (h0 : k < 0) (hk : is_int k) :
    (int_to_size_t k : Int) = 2 ^ 64 + k := by
  unfold is_int INT_MIN INT_MAX at hk
  unfold int_to_size_t SIZE_T_RANGE
  have h1 : k % ((2 ^ 64 : Nat) : Int) = 2 ^ 64 + k := by
    have h2 : k % ((2 ^ 64 : Nat) : Int) = (k + 2 ^ 64) % ((2 ^ 64 : Nat) : Int) := by
      norm_num
    rw [h2]
    have h3 : (k + 2 ^ 64) % ((2 ^ 64 : Nat) : Int) = k + 2 ^ 64 := by
      apply Int.emod_eq_of_lt
      · norm_num at hk ⊢; omega
      · norm_num; omega
    rw [h3]; ring
  rw [h1]
  have h4 : (0 : Int) ≤ 2 ^ 64 + k := by norm_num at hk ⊢; omega
  exact Int.toNat_of_nonneg h4

theorem single_linkage_of_assert_failed {I V M : Type} (S : Stages I V M)
    (d : LinkageDistance) (X : List V) (m n : Nat) (metric : M) (out : linkage_output I)
    (c k : Int) (h : ¬ int_to_size_t k ≤ m) :
    single_linkage S d X m n metric out c k =
      { status := Except.error n_clusters_message, out := out, calls := [] } := by
  unfold single_linkage ASSERT
  simp [h]

theorem rejected_of_assert_failed {I V M : Type} (S : Stages I V M)
    (d : LinkageDistance) (X : List V) (m n : Nat) (metric : M) (out : linkage_output I)
    (c k : Int) (h : ¬ int_to_size_t k ≤ m) :
    rejected (single_linkage S d X m n metric out c k) out := by
  rw [single_linkage_of_assert_failed S d X m n metric out c k h]
  exact ⟨rfl, rfl, rfl⟩

/-- The function single_linkage, for stages given as functions, is one of the runs of
the relational description instantiated with those functions. -/
theorem single_linkage_is_run {I V M : Type} (S : Stages I V M)
    (d : LinkageDistance) (X : List V) (m n : Nat) (metric : M) (out : linkage_output I)
    (c k : Int) :
    single_linkage_runs S.graph d X m n metric out c k
      (single_linkage S d X m n metric out c k) := by
  by_cases h : int_to_size_t k ≤ m
  · rcases h1 : S.get_distance_graph d X m n metric c with e | ⟨indptr, indices, pw⟩
    · simp only [single_linkage, ASSERT, h, decide_True, if_true, h1]
      exact single_linkage_runs.graph_failed e h h1
    · rcases h2 : S.build_sorted_mst indptr indices pw m indices.length with
        e | ⟨rows, cols, data⟩
      · simp only [single_linkage, ASSERT, h, decide_True, if_true, h1, h2]
        exact single_linkage_runs.mst_failed indptr indices pw e h h1 h2
      · rcases h3 : S.build_dendrogram_host rows cols data rows.length (rows.length * 2)
          rows.length rows.length with e | ⟨children, delta, size⟩
        · simp only [single_linkage, ASSERT, h, decide_True, if_true, h1, h2, h3]
          exact single_linkage_runs.dendrogram_failed indptr indices pw rows cols data e
            h h1 h2 h3
        · rcases h4 : S.extract_flattened_clusters out.labels children k m with
            ⟨e, left⟩ | labels
          · simp only [single_linkage, ASSERT, h, decide_True, if_true, h1, h2, h3, h4]
            exact single_linkage_runs.extract_failed indptr indices pw rows cols data
              children delta size e left h h1 h2 h3 h4
          · simp only [single_linkage, ASSERT, h, decide_True, if_true, h1, h2, h3, h4]
            exact single_linkage_runs.done indptr indices pw rows cols data
              children delta size labels h h1 h2 h3 h4
  · rw [single_linkage_of_assert_failed S d X m n metric out c k h]
    exact single_linkage_runs.assert_failed h

theorem entered_of_run {I V M : Type} (R : StageRelations I V M)
    (d : LinkageDistance) (X : List V) (m n : Nat) (metric : M) (out : linkage_output I)
    (c k : Int) (r : Run I V M) (hr : single_linkage_runs R d X m n metric out c k r)
    (h : int_to_size_t k ≤ m) : entered_pipeline r d X m n metric c := by
  cases hr with
  | assert_failed h0 => exact absurd h h0
  | graph_failed => rfl
  | mst_failed => rfl
  | dendrogram_failed => rfl
  | extract_failed => rfl
  | done => rfl

theorem entered_of_assert_passed {I V M : Type} (S : Stages I V M)
    (d : LinkageDistance) (X : List V) (m n : Nat) (metric : M) (out : linkage_output I)
    (c k : Int) (h : int_to_size_t k ≤ m) :
    entered_pipeline (single_linkage S d X m n metric out c k) d X m n metric c :=
  entered_of_run S.graph d X m n metric out c k _
    (single_linkage_is_run S d X m n metric out c k) h

theorem not_rejected_of_entered {I V M : Type} (r : Run I V M) (out : linkage_output I)
    (d : LinkageDistance) (X : List V) (m n : Nat) (metric : M) (c : Int)
    (h : entered_pipeline r d X m n metric c) : ¬ rejected r out := by
  intro hr
  unfold entered_pipeline at h
  rw [hr.2.1] at h
  simp at h

/-- The output record after any run differs from the record passed at most in the
labels: single_linkage assigns no other member. -/
theorem run_frame {I V M : Type} (R : StageRelations I V M)
    (d : LinkageDistance) (X : List V) (m n : Nat) (metric : M) (out : linkage_output I)
    (c k : Int) (r : Run I V M) (hr : single_linkage_runs R d X m n metric out c k r) :
    r.out = { out with labels := r.out.labels } := by
  cases hr <;> rfl

theorem single_linkage_frame {I V M : Type} (S : Stages I V M)
    (d : LinkageDistance) (X : List V) (m n : Nat) (metric : M) (out : linkage_output I)
    (c k : Int) :
    (single_linkage S d X m n metric out c k).out =
      { out with labels := (single_linkage S d X m n metric out c k).out.labels } :=
  run_frame S.graph d X m n metric out c k _ (single_linkage_is_run S d X m n metric out c k)

/-- A chain of the four stages that returns gives a run that ends normally, writes the
labels of the chain and calls each stage once, in order. -/
theorem single_linkage_of_chain {I V M : Type} (S : Stages I V M)
    (d : LinkageDistance) (X : List V) (m n : Nat) (metric : M) (out : linkage_output I)
    (c k : Int) (h : int_to_size_t k ≤ m)
    (indptr indices : List I) (pw : List V) (rows cols : List I) (data : List V)
    (children labels : List I)
    (hc : forward_chain S d X m n metric out.labels c k indptr indices pw rows cols data
      children labels) :
    (single_linkage S d X m n metric out c k).status = Except.ok () ∧
    (single_linkage S d X m n metric out c k).out.labels = labels ∧
    (single_linkage S d X m n metric out c k).calls =
      [StageCall.get_distance_graph d X m n metric c,
       StageCall.build_sorted_mst indptr indices pw m indices.length,
       StageCall.build_dendrogram_host rows cols data rows.length (2 * rows.length)
         rows.length rows.length,
       StageCall.extract_flattened_clusters out.labels children k m] := by
  obtain ⟨h1, h2, ⟨delta, size, h3⟩, h4⟩ := hc
  rw [Nat.mul_comm 2 rows.length] at h3 ⊢
  simp only [single_linkage, ASSERT, h, decide_True, if_true, h1, h2, h3, h4]
  exact ⟨trivial, trivial, trivial⟩

/-- A run that ends normally went through a chain of the four stages that returned, and
its labels are the labels of that chain. -/
theorem chain_of_single_linkage {I V M : Type} (S : Stages I V M)
    (d : LinkageDistance) (X : List V) (m n : Nat) (metric : M) (out : linkage_output I)
    (c k : Int) (hs : (single_linkage S d X m n metric out c k).status = Except.ok ()) :
    ∃ indptr indices pw rows cols data children,
      forward_chain S d X m n metric out.labels c k indptr indices pw rows cols data
        children (single_linkage S d X m n metric out c k).out.labels := by
  have hr := single_linkage_is_run S d X m n metric out c k
  generalize single_linkage S d X m n metric out c k = r at hr hs
  cases hr with
  | assert_failed a => cases hs
  | graph_failed e a g => cases hs
  | mst_failed _ _ _ e a g t => cases hs
  | dendrogram_failed _ _ _ _ _ _ e a g t b => cases hs
  | extract_failed _ _ _ _ _ _ _ _ _ e left a g t b x => cases hs
  | done indptr indices pw rows cols data children delta size labels a g t b x =>
    refine ⟨indptr, indices, pw, rows, cols, data, children, g, t, ⟨delta, size, ?_⟩, x⟩
    rw [Nat.mul_comm 2 rows.length]
    exact b

/-- The members of the output record other than labels keep the caller's values in every
run, whatever the stages return. -/
theorem single_linkage_keeps_other_members {I V M : Type} (S : Stages I V M)
    (d : LinkageDistance) (X : List V) (m n : Nat) (metric : M) (out : linkage_output I)
    (c k : Int) :
    (single_linkage S d X m n metric out c k).out.children = out.children ∧
    (single_linkage S d X m n metric out c k).out.n_leaves = out.n_leaves ∧
    (single_linkage S d X m n metric out c k).out.m = out.m ∧
    (single_linkage S d X m n metric out c k).out.n_clusters = out.n_clusters ∧
    (single_linkage S d X m n metric out c k).out.n_connected_components =
      out.n_connected_components := by
  have h := single_linkage_frame S d X m n metric out c k
  refine ⟨?_, ?_, ?_, ?_, ?_⟩ <;> rw [h]

/-! ## The stages modelled from the specification -/

theorem find_eq_getElem (cur : List Nat) (p : Nat) (h : p < cur.length) :
    find cur p = cur[p] := by
  unfold find
  simp [List.getD, List.getElem?_eq_getElem h]

theorem find_mem (cur : List Nat) (p : Nat) (h : p < cur.length) : find cur p ∈ cur := by
  rw [find_eq_getElem cur p h]
  exact List.getElem_mem h

theorem exists_find_of_mem (cur : List Nat) (x : Nat) (h : x ∈ cur) :
    ∃ p, p < cur.length ∧ find cur p = x := by
  obtain ⟨p, hp, hx⟩ := List.getElem_of_mem h
  exact ⟨p, hp, by rw [find_eq_getElem cur p hp]; exact hx⟩

theorem relabel_length (cur : List Nat) (a b c : Nat) :
    (relabel cur a b c).length = cur.length := by
  simp [relabel]

theorem find_relabel (cur : List Nat) (a b c p : Nat) (h : p < cur.length) :
    find (relabel cur a b c) p = if find cur p = a ∨ find cur p = b then c else find cur p := by
  rw [find_eq_getElem _ p (by rw [relabel_length]; exact h), find_eq_getElem cur p h]
  simp [relabel]

theorem mem_relabel (cur : List Nat) (a b c y : Nat) :
    y ∈ relabel cur a b c ↔ ∃ x ∈ cur, (if x = a ∨ x = b then c else x) = y := by
  simp [relabel]

theorem relabel_self (cur : List Nat) (a : Nat) : relabel cur a a a = cur := by
  unfold relabel
  conv_rhs => rw [← List.map_id cur]
  apply List.map_congr_left
  intro x _
  by_cases h : x = a <;> simp [h]

theorem card_relabel (cur : List Nat) (a b c : Nat) (ha : a ∈ cur) (hb : b ∈ cur)
    (hab : a ≠ b) (hc : ∀ x ∈ cur, x = c → x = a ∨ x = b) :
    (relabel cur a b c).toFinset.card + 1 = cur.toFinset.card := by
  have himg : (relabel cur a b c).toFinset = insert c ((cur.toFinset.erase a).erase b) := by
    ext y
    simp only [List.mem_toFinset, mem_relabel, Finset.mem_insert, Finset.mem_erase]
    constructor
    · rintro ⟨x, hx, hxy⟩
      by_cases h : x = a ∨ x = b
      · rw [if_pos h] at hxy; left; exact hxy.symm
      · rw [if_neg h] at hxy
        subst hxy
        right
        exact ⟨fun e => h (Or.inr e), fun e => h (Or.inl e), hx⟩
    · rintro (h | ⟨h1, h2, h3⟩)
      · exact ⟨a, ha, by simp [h]⟩
      · exact ⟨y, h3, by simp [h1, h2]⟩
  have hnot : c ∉ (cur.toFinset.erase a).erase b := by
    simp only [Finset.mem_erase, List.mem_toFinset]
    rintro ⟨h1, h2, h3⟩
    rcases hc c h3 rfl with h | h
    · exact h2 h
    · exact h1 h
  rw [himg, Finset.card_insert_of_not_mem hnot]
  have hb2 : b ∈ cur.toFinset.erase a := by
    simp only [Finset.mem_erase, List.mem_toFinset]
    exact ⟨fun e => hab e.symm, hb⟩
  have ha2 : a ∈ cur.toFinset := by simpa using ha
  have h1 := Finset.card_erase_of_mem hb2
  have h2 := Finset.card_erase_of_mem ha2
  have h3 : 0 < cur.toFinset.card := Finset.card_pos.mpr ⟨a, ha2⟩
  have h4 : 0 < (cur.toFinset.erase a).card := Finset.card_pos.mpr ⟨b, hb2⟩
  omega

theorem connected_by_mono {V : Type} (es es2 : List (Edge V)) (h : ∀ e ∈ es, e ∈ es2)
    (p q : Nat) (hc : connected_by es p q) : connected_by es2 p q := by
  induction hc with
  | rel x y hxy =>
    obtain ⟨e, he, h1, h2⟩ := hxy
    exact Relation.EqvGen.rel _ _ ⟨e, h e he, h1, h2⟩
  | refl x => exact Relation.EqvGen.refl _
  | symm x y _ ih => exact Relation.EqvGen.symm _ _ ih
  | trans x y z _ _ ih1 ih2 => exact Relation.EqvGen.trans _ _ _ ih1 ih2

theorem connected_by_congr {V : Type} (es es2 : List (Edge V)) (h : ∀ e, e ∈ es ↔ e ∈ es2)
    (p q : Nat) : connected_by es p q ↔ connected_by es2 p q :=
  ⟨connected_by_mono es es2 (fun e he => (h e).mp he) p q,
   connected_by_mono es2 es (fun e he => (h e).mpr he) p q⟩

theorem connected_by_nil {V : Type} (p q : Nat) :
    connected_by ([] : List (Edge V)) p q ↔ p = q := by
  constructor
  · intro hc
    induction hc with
    | rel x y hxy => obtain ⟨e, he, _⟩ := hxy; cases he
    | refl x => rfl
    | symm x y _ ih => exact ih.symm
    | trans x y z _ _ ih1 ih2 => exact ih1.trans ih2
  · intro h; subst h; exact Relation.EqvGen.refl _

/-- Uniting the clusters of the endpoints of an edge under an id that no other cluster
bears represents the components of the edge list extended by that edge. -/
theorem represents_union {V : Type} (m : Nat) (cur : List Nat) (es : List (Edge V))
    (e : Edge V) (c : Nat) (hR : Represents m cur es) (hu : e.row < m) (hv : e.col < m)
    (hc : ∀ x ∈ cur, x = c → x = find cur e.row ∨ x = find cur e.col) :
    Represents m (relabel cur (find cur e.row) (find cur e.col) c) (es ++ [e]) := by
  have hlen := hR.len
  refine ⟨by rw [relabel_length]; exact hlen, ?_, ?_⟩
  · intro e2 he2
    rcases List.mem_append.mp he2 with h | h
    · exact hR.valid e2 h
    · simp at h; subst h; exact ⟨hu, hv⟩
  · intro p q hp hq
    have hfp := find_relabel cur (find cur e.row) (find cur e.col) c p (by omega)
    have hfq := find_relabel cur (find cur e.row) (find cur e.col) c q (by omega)
    have hmono : ∀ x y, connected_by es x y → connected_by (es ++ [e]) x y :=
      connected_by_mono es (es ++ [e]) (fun e2 h => List.mem_append.mpr (Or.inl h))
    have huv : connected_by (es ++ [e]) e.row e.col :=
      Relation.EqvGen.rel _ _ ⟨e, by simp, rfl, rfl⟩
    have hto : ∀ x, x < m → (find cur x = find cur e.row ∨ find cur x = find cur e.col) →
        connected_by (es ++ [e]) x e.row := by
      intro x hx h
      rcases h with h | h
      · exact hmono _ _ ((hR.kernel x e.row hx hu).mp h)
      · exact Relation.EqvGen.trans _ _ _ (hmono _ _ ((hR.kernel x e.col hx hv).mp h))
          (Relation.EqvGen.symm _ _ huv)
    constructor
    · intro heq
      rw [hfp, hfq] at heq
      by_cases h1 : find cur p = find cur e.row ∨ find cur p = find cur e.col
      · by_cases h2 : find cur q = find cur e.row ∨ find cur q = find cur e.col
        · exact Relation.EqvGen.trans _ _ _ (hto p hp h1)
            (Relation.EqvGen.symm _ _ (hto q hq h2))
        · rw [if_pos h1, if_neg h2] at heq
          exact absurd (hc (find cur q) (find_mem cur q (by omega)) heq.symm) h2
      · by_cases h2 : find cur q = find cur e.row ∨ find cur q = find cur e.col
        · rw [if_neg h1, if_pos h2] at heq
          exact absurd (hc (find cur p) (find_mem cur p (by omega)) heq) h1
        · rw [if_neg h1, if_neg h2] at heq
          exact hmono _ _ ((hR.kernel p q hp hq).mp heq)
    · intro hcon
      have hgen : ∀ x y, connected_by (es ++ [e]) x y →
          x = y ∨ (x < m ∧ y < m ∧
            find (relabel cur (find cur e.row) (find cur e.col) c) x =
            find (relabel cur (find cur e.row) (find cur e.col) c) y) := by
        intro x y hxy
        induction hxy with
        | rel x y hr =>
          obtain ⟨e2, he2, h1, h2⟩ := hr
          right
          rcases List.mem_append.mp he2 with h | h
          · have hv2 := hR.valid e2 h
            rw [h1, h2] at hv2
            refine ⟨hv2.1, hv2.2, ?_⟩
            have hk : find cur x = find cur y :=
              (hR.kernel x y hv2.1 hv2.2).mpr (Relation.EqvGen.rel _ _ ⟨e2, h, h1, h2⟩)
            rw [find_relabel cur _ _ c x (by omega), find_relabel cur _ _ c y (by omega), hk]
          · simp at h
            subst h
            subst h1 h2
            refine ⟨hu, hv, ?_⟩
            rw [find_relabel cur _ _ c e2.row (by omega),
              find_relabel cur _ _ c e2.col (by omega)]
            simp
        | refl x => left; rfl
        | symm x y _ ih =>
          rcases ih with h | ⟨h1, h2, h3⟩
          · left; exact h.symm
          · right; exact ⟨h2, h1, h3.symm⟩
        | trans x y z _ _ ih1 ih2 =>
          rcases ih1 with h | ⟨h1, h2, h3⟩
          · subst h; exact ih2
          · rcases ih2 with h | ⟨h4, h5, h6⟩
            · subst h; right; exact ⟨h1, h2, h3⟩
            · right; exact ⟨h1, h5, h3.trans h6⟩
      rcases hgen p q hcon with h | ⟨_, _, h⟩
      · subst h; rfl
      · exact h

/-- An edge inside one cluster changes nothing: the same mapping represents the edge list
extended by that edge. -/
theorem represents_skip {V : Type} (m : Nat) (cur : List Nat) (es : List (Edge V))
    (e : Edge V) (hR : Represents m cur es) (hu : e.row < m) (hv : e.col < m)
    (heq : find cur e.row = find cur e.col) : Represents m cur (es ++ [e]) := by
  have h := represents_union m cur es e (find cur e.row) hR hu hv (fun x _ hx => Or.inl hx)
  rw [← heq, relabel_self] at h
  exact h

theorem toFinset_eq_image_find (cur : List Nat) :
    cur.toFinset = (Finset.range cur.length).image (find cur) := by
  ext x
  simp only [List.mem_toFinset, Finset.mem_image, Finset.mem_range]
  constructor
  · intro h
    exact exists_find_of_mem cur x h
  · rintro ⟨p, hp, rfl⟩
    exact find_mem cur p hp

theorem card_image_le_of_kernel (s : Finset Nat) (f g : Nat → Nat)
    (h : ∀ p ∈ s, ∀ q ∈ s, g p = g q → f p = f q) :
    (s.image f).card ≤ (s.image g).card := by
  classical
  let pick : Nat → Nat := fun y =>
    if hy : ∃ p ∈ s, g p = y then f (Classical.choose hy) else 0
  have hsub : s.image f ⊆ (s.image g).image pick := by
    intro x hx
    obtain ⟨p, hp, rfl⟩ := Finset.mem_image.mp hx
    refine Finset.mem_image.mpr ⟨g p, Finset.mem_image_of_mem g hp, ?_⟩
    have hy : ∃ p2 ∈ s, g p2 = g p := ⟨p, hp, rfl⟩
    have hspec := Classical.choose_spec hy
    show pick (g p) = f p
    simp only [pick, dif_pos hy]
    exact h _ hspec.1 _ hp hspec.2
  exact (Finset.card_le_card hsub).trans Finset.card_image_le

/-- Two mappings that represent edge lists with the same connectivity have the same
number of distinct cluster ids. -/
theorem card_eq_of_represents {V : Type} (m : Nat) (cur1 cur2 : List Nat)
    (es1 es2 : List (Edge V)) (h1 : Represents m cur1 es1) (h2 : Represents m cur2 es2)
    (hcon : ∀ p q, connected_by es1 p q ↔ connected_by es2 p q) :
    cur1.toFinset.card = cur2.toFinset.card := by
  rw [toFinset_eq_image_find cur1, toFinset_eq_image_find cur2, h1.len, h2.len]
  apply le_antisymm
  · apply card_image_le_of_kernel
    intro p hp q hq hpq
    simp only [Finset.mem_range] at hp hq
    exact (h1.kernel p q hp hq).mpr ((hcon p q).mpr ((h2.kernel p q hp hq).mp hpq))
  · apply card_image_le_of_kernel
    intro p hp q hq hpq
    simp only [Finset.mem_range] at hp hq
    exact (h2.kernel p q hp hq).mpr ((hcon p q).mp ((h1.kernel p q hp hq).mp hpq))

/-- Any list of further edges can be absorbed: some mapping represents the extended edge
list, and it has lost at most one cluster id per further edge. -/
theorem represents_extend {V : Type} (m : Nat) (more : List (Edge V)) :
    ∀ (cur : List Nat) (es : List (Edge V)) (k : Nat),
      Represents m cur es → (∀ e ∈ more, e.row < m ∧ e.col < m) →
      cur.toFinset.card + k = m →
      ∃ cur2 k2, Represents m cur2 (es ++ more) ∧ cur2.toFinset.card + k2 = m ∧
        k2 ≤ k + more.length := by
  induction more with
  | nil =>
    intro cur es k hR _ hk
    exact ⟨cur, k, by simpa using hR, hk, by simp⟩
  | cons e more ih =>
    intro cur es k hR hval hk
    have he := hval e (by simp)
    have hval2 : ∀ e2 ∈ more, e2.row < m ∧ e2.col < m :=
      fun e2 h2 => hval e2 (by simp [h2])
    have happ : es ++ e :: more = (es ++ [e]) ++ more := by simp
    by_cases heq : find cur e.row = find cur e.col
    · obtain ⟨cur2, k2, h1, h2, h3⟩ :=
        ih cur (es ++ [e]) k (represents_skip m cur es e hR he.1 he.2 heq) hval2 hk
      refine ⟨cur2, k2, by rw [happ]; exact h1, h2, ?_⟩
      simp only [List.length_cons]; omega
    · have hlen := hR.len
      have hcard := card_relabel cur (find cur e.row) (find cur e.col) (find cur e.row)
        (find_mem cur _ (by omega)) (find_mem cur _ (by omega)) heq
        (fun x _ hx => Or.inl hx)
      obtain ⟨cur2, k2, h1, h2, h3⟩ :=
        ih _ (es ++ [e]) (k + 1)
          (represents_union m cur es e (find cur e.row) hR he.1 he.2
            (fun x _ hx => Or.inl hx)) hval2 (by omega)
      refine ⟨cur2, k2, by rw [happ]; exact h1, h2, ?_⟩
      simp only [List.length_cons]; omega

theorem find_range (m p : Nat) (h : p < m) : find (List.range m) p = p := by
  rw [find_eq_getElem _ p (by simpa using h)]
  simp

theorem forest_init {V : Type} (m : Nat) :
    ForestState m ((List.range m, []) : List Nat × List (Edge V)) := by
  refine ⟨⟨by simp, by simp, ?_⟩, ?_, ?_⟩
  · intro p q hp hq
    show find (List.range m) p = find (List.range m) q ↔ _
    rw [find_range m p hp, find_range m q hq, connected_by_nil]
  · show (List.range m).toFinset.card + 0 = m
    rw [List.toFinset_card_of_nodup (List.nodup_range m)]
    simp
  · intro x hx
    have hx2 : x < m := by simpa using hx
    exact ⟨hx2, find_range m x hx2⟩

theorem contract_edge_of_eq {V : Type} (st : List Nat × List (Edge V)) (e : Edge V)
    (h : find st.1 e.row = find st.1 e.col) : contract_edge st e = st := by
  unfold contract_edge; rw [if_pos h]

theorem contract_edge_of_ne {V : Type} (st : List Nat × List (Edge V)) (e : Edge V)
    (h : find st.1 e.row ≠ find st.1 e.col) :
    contract_edge st e = (relabel st.1 (find st.1 e.row) (find st.1 e.col)
      (min (find st.1 e.row) (find st.1 e.col)), st.2 ++ [e]) := by
  unfold contract_edge; rw [if_neg h]

theorem min_eq_or (a b : Nat) : min a b = a ∨ min a b = b := by
  rcases Nat.le_total a b with h | h
  · left; exact Nat.min_eq_left h
  · right; exact Nat.min_eq_right h

theorem forest_contract {V : Type} (m : Nat) (st : List Nat × List (Edge V)) (e : Edge V)
    (hS : ForestState m st) (hu : e.row < m) (hv : e.col < m) :
    ForestState m (contract_edge st e) := by
  by_cases heq : find st.1 e.row = find st.1 e.col
  · rw [contract_edge_of_eq st e heq]; exact hS
  · rw [contract_edge_of_ne st e heq]
    have hlen := hS.rep.len
    have ha := find_mem st.1 e.row (by omega)
    have hb := find_mem st.1 e.col (by omega)
    have hmin := min_eq_or (find st.1 e.row) (find st.1 e.col)
    have hc : ∀ x ∈ st.1, x = min (find st.1 e.row) (find st.1 e.col) →
        x = find st.1 e.row ∨ x = find st.1 e.col := by
      intro x _ hx
      rw [hx]; exact hmin
    refine ⟨represents_union m st.1 st.2 e _ hS.rep hu hv hc, ?_, ?_⟩
    · have := card_relabel st.1 _ _ _ ha hb heq hc
      show (relabel st.1 _ _ _).toFinset.card + (st.2 ++ [e]).length = m
      have hcount := hS.count
      simp only [List.length_append, List.length_singleton]
      omega
    · intro y hy
      show y < m ∧ find (relabel st.1 _ _ _) y = y
      obtain ⟨x, hx, hxy⟩ := (mem_relabel _ _ _ _ _).mp hy
      have hcm : min (find st.1 e.row) (find st.1 e.col) ∈ st.1 := by
        rcases hmin with h | h <;> rw [h] <;> assumption
      have hyin : y ∈ st.1 := by
        by_cases h : x = find st.1 e.row ∨ x = find st.1 e.col
        · rw [if_pos h] at hxy; rw [← hxy]; exact hcm
        · rw [if_neg h] at hxy; rw [← hxy]; exact hx
      have hy1 := hS.fixed y hyin
      refine ⟨hy1.1, ?_⟩
      rw [find_relabel st.1 _ _ _ y (by omega), hy1.2]
      by_cases h : x = find st.1 e.row ∨ x = find st.1 e.col
      · rw [if_pos h] at hxy
        rw [← hxy]
        have : min (find st.1 e.row) (find st.1 e.col) = find st.1 e.row ∨
            min (find st.1 e.row) (find st.1 e.col) = find st.1 e.col := hmin
        rw [if_pos this]
      · rw [if_neg h] at hxy
        rw [← hxy, if_neg h]

theorem forest_foldl {V : Type} (m : Nat) (es : List (Edge V)) :
    ∀ st : List Nat × List (Edge V), ForestState m st →
      (∀ e ∈ es, e.row < m ∧ e.col < m) → ForestState m (es.foldl contract_edge st) := by
  induction es with
  | nil => intro st hS _; exact hS
  | cons e es ih =>
    intro st hS hval
    simp only [List.foldl_cons]
    apply ih
    · exact forest_contract m st e hS (hval e (by simp)).1 (hval e (by simp)).2
    · intro e2 h2; exact hval e2 (by simp [h2])

theorem cheapest_fold_mem {V : Type} [LinearOrder V] (l : List (Edge V)) :
    ∀ (init : Option (Edge V)) (e : Edge V),
      l.foldl (fun best e =>
        match best with
        | none => some e
        | some b => if edge_le b e then some b else some e) init = some e →
      init = some e ∨ e ∈ l := by
  induction l with
  | nil => intro init e h; left; simpa using h
  | cons x l ih =>
    intro init e h
    simp only [List.foldl_cons] at h
    rcases ih _ e h with h1 | h1
    · cases init with
      | none =>
        simp only [Option.some.injEq] at h1
        right; rw [← h1]; simp
      | some b =>
        simp only at h1
        by_cases hle : edge_le b x
        · rw [if_pos hle] at h1; left; exact h1
        · rw [if_neg hle] at h1
          simp only [Option.some.injEq] at h1
          right; rw [← h1]; simp
    · right; simp [h1]

theorem cheapest_mem {V : Type} [LinearOrder V] (comp : List Nat) (edges : List (Edge V))
    (c : Nat) (e : Edge V) (h : cheapest comp edges c = some e) : e ∈ edges := by
  unfold cheapest at h
  rcases cheapest_fold_mem _ none e h with h1 | h1
  · cases h1
  · exact (List.mem_filter.mp h1).1

theorem forest_boruvka {V : Type} [LinearOrder V] (m : Nat) (edges : List (Edge V))
    (hval : ∀ e ∈ edges, e.row < m ∧ e.col < m) :
    ∀ (fuel : Nat) (st : List Nat × List (Edge V)), ForestState m st →
      ForestState m (boruvka_rounds edges fuel st) := by
  intro fuel
  induction fuel with
  | zero => intro st hS; exact hS
  | succ fuel ih =>
    intro st hS
    unfold boruvka_rounds
    split
    · exact hS
    · rename_i e sel hsel
      apply ih
      apply forest_foldl m _ st hS
      intro e2 he2
      rw [← hsel] at he2
      obtain ⟨c, _, hc⟩ := List.mem_filterMap.mp he2
      exact hval e2 (cheapest_mem st.1 edges c e2 hc)

theorem csr_edges_valid {V : Type} (indptr indices : List Nat) (weights : List V)
    (m nnz : Nat) (hidx : ∀ j ∈ indices, j < m) :
    ∀ e ∈ csr_edges indptr indices weights m nnz, e.row < m ∧ e.col < m := by
  intro e he
  unfold csr_edges at he
  obtain ⟨i, hi, he2⟩ := List.mem_flatMap.mp he
  obtain ⟨k, _, hk⟩ := List.mem_filterMap.mp he2
  simp only at hk
  split at hk
  · split at hk
    · rename_i j w hj hw
      simp only [Option.some.injEq] at hk
      subst hk
      refine ⟨by simpa using hi, hidx j ?_⟩
      exact List.getElem?_mem hj
    · cases hk
  · cases hk

theorem representatives_lt (comp : List Nat) : ∀ x ∈ representatives comp, x < comp.length := by
  intro x hx
  unfold representatives at hx
  have := (List.mem_filter.mp hx).1
  simpa using this

theorem mem_representatives (comp : List Nat) (x : Nat) (h1 : x < comp.length)
    (h2 : find comp x = x) : x ∈ representatives comp := by
  unfold representatives
  exact List.mem_filter.mpr ⟨by simpa using h1, by simpa using h2⟩

theorem bridge_edges_valid {V : Type} (w : V) (m : Nat) :
    ∀ l : List Nat, (∀ x ∈ l, x < m) → ∀ e ∈ bridge_edges w l, e.row < m ∧ e.col < m := by
  intro l
  induction l with
  | nil => intro _ e he; simp [bridge_edges] at he
  | cons a tl ih =>
    intro hl e he
    cases tl with
    | nil => simp [bridge_edges] at he
    | cons b rest =>
      simp only [bridge_edges, List.mem_cons] at he
      rcases he with h | h
      · subst h
        exact ⟨hl a (by simp), hl b (by simp)⟩
      · exact ih (fun x hx => hl x (by simp [hx])) e (by simpa [bridge_edges] using h)

theorem contract_edge_length {V : Type} (st : List Nat × List (Edge V)) (e : Edge V) :
    (contract_edge st e).1.length = st.1.length := by
  unfold contract_edge
  split
  · rfl
  · simp [relabel]

theorem contract_edge_kernel {V : Type} (st : List Nat × List (Edge V)) (e : Edge V)
    (p q : Nat) (hp : p < st.1.length) (hq : q < st.1.length)
    (h : find st.1 p = find st.1 q) :
    find (contract_edge st e).1 p = find (contract_edge st e).1 q := by
  by_cases heq : find st.1 e.row = find st.1 e.col
  · rw [contract_edge_of_eq st e heq]; exact h
  · rw [contract_edge_of_ne st e heq]
    show find (relabel st.1 _ _ _) p = find (relabel st.1 _ _ _) q
    rw [find_relabel _ _ _ _ p hp, find_relabel _ _ _ _ q hq, h]

theorem contract_edge_joins {V : Type} (st : List Nat × List (Edge V)) (e : Edge V)
    (hu : e.row < st.1.length) (hv : e.col < st.1.length) :
    find (contract_edge st e).1 e.row = find (contract_edge st e).1 e.col := by
  by_cases heq : find st.1 e.row = find st.1 e.col
  · rw [contract_edge_of_eq st e heq]; exact heq
  · rw [contract_edge_of_ne st e heq]
    show find (relabel st.1 _ _ _) e.row = find (relabel st.1 _ _ _) e.col
    rw [find_relabel _ _ _ _ e.row hu, find_relabel _ _ _ _ e.col hv]
    simp

/-- After the bridges between the listed points, when every point was in the component
of a listed point, all points are in one component. -/
theorem bridges_join_all {V : Type} (w : V) (m : Nat) :
    ∀ (l : List Nat) (st : List Nat × List (Edge V)), st.1.length = m →
      (∀ x ∈ l, x < m) →
      (∀ p, p < m → ∃ x ∈ l, find st.1 p = find st.1 x) →
      ∀ p q, p < m → q < m →
        find ((bridge_edges w l).foldl contract_edge st).1 p =
        find ((bridge_edges w l).foldl contract_edge st).1 q := by
  intro l
  induction l with
  | nil =>
    intro st _ _ hcov p q hp _
    obtain ⟨x, hx, _⟩ := hcov p hp
    cases hx
  | cons a tl ih =>
    intro st hlen hl hcov p q hp hq
    cases tl with
    | nil =>
      simp only [bridge_edges, List.foldl_nil]
      obtain ⟨x, hx, hpx⟩ := hcov p hp
      obtain ⟨y, hy, hqy⟩ := hcov q hq
      simp only [List.mem_singleton] at hx hy
      rw [hpx, hqy, hx, hy]
    | cons b rest =>
      simp only [bridge_edges, List.foldl_cons]
      have ha : a < m := hl a (by simp)
      have hb : b < m := hl b (by simp)
      apply ih (contract_edge st { row := a, col := b, weight := w })
        (by rw [contract_edge_length]; exact hlen)
        (fun x hx => hl x (by simp [hx])) _ p q hp hq
      intro p2 hp2
      obtain ⟨x, hx, hpx⟩ := hcov p2 hp2
      have hx_lt : x < m := hl x hx
      have hk := contract_edge_kernel st { row := a, col := b, weight := w } p2 x
        (by omega) (by omega) hpx
      rcases List.mem_cons.mp hx with h | h
      · refine ⟨b, by simp, ?_⟩
        rw [hk, h]
        exact contract_edge_joins st { row := a, col := b, weight := w }
          (by show a < st.1.length; omega) (by show b < st.1.length; omega)
      · exact ⟨x, h, hk⟩

/-- The spanning tree of the modelled MST constructor: a forest state over the m points
whose tree has m - 1 edges, when the column ids of the graph are point ids. -/
theorem spanning_tree_state {V M : Type} [LinearOrder V] (K : Collaborators V M)
    (indptr indices : List Nat) (weights : List V) (m nnz : Nat)
    (hidx : ∀ j ∈ indices, j < m) :
    ForestState m (spanning_tree K indptr indices weights m nnz) ∧
    (spanning_tree K indptr indices weights m nnz).2.length = m - 1 := by
  have hval : ∀ e ∈ (csr_edges indptr indices weights m nnz).filter (fun e => e.row ≠ e.col),
      e.row < m ∧ e.col < m :=
    fun e he => csr_edges_valid indptr indices weights m nnz hidx e (List.mem_filter.mp he).1
  have h1 := forest_boruvka m _ hval m (List.range m, []) (forest_init m)
  have hreps := representatives_lt
    (boruvka_rounds ((csr_edges indptr indices weights m nnz).filter (fun e => e.row ≠ e.col))
      m (List.range m, [])).1
  rw [h1.rep.len] at hreps
  have h2 := forest_foldl m (bridge_edges (K.above
      (((csr_edges indptr indices weights m nnz).filter (fun e => e.row ≠ e.col)).map
        Edge.weight)) (representatives (boruvka_rounds
      ((csr_edges indptr indices weights m nnz).filter (fun e => e.row ≠ e.col))
      m (List.range m, [])).1)) _ h1
    (bridge_edges_valid _ m _ hreps)
  have hall := bridges_join_all (K.above
      (((csr_edges indptr indices weights m nnz).filter (fun e => e.row ≠ e.col)).map
        Edge.weight)) m _ _ h1.rep.len hreps (by
      intro p hp
      have hmem := find_mem (boruvka_rounds
        ((csr_edges indptr indices weights m nnz).filter (fun e => e.row ≠ e.col))
        m (List.range m, [])).1 p (by rw [h1.rep.len]; exact hp)
      have hfix := h1.fixed _ hmem
      exact ⟨_, mem_representatives _ _ (by rw [h1.rep.len]; exact hfix.1) hfix.2,
        hfix.2.symm⟩)
  refine ⟨h2, ?_⟩
  have hcount := h2.count
  have hlen := h2.rep.len
  change (spanning_tree K indptr indices weights m nnz).1.toFinset.card +
    (spanning_tree K indptr indices weights m nnz).2.length = m at hcount
  change (spanning_tree K indptr indices weights m nnz).1.length = m at hlen
  change ∀ p q, p < m → q < m →
    find (spanning_tree K indptr indices weights m nnz).1 p =
    find (spanning_tree K indptr indices weights m nnz).1 q at hall
  rcases Nat.eq_zero_or_pos m with h0 | hpos
  · omega
  · have hsub : (spanning_tree K indptr indices weights m nnz).1.toFinset ⊆
        {find (spanning_tree K indptr indices weights m nnz).1 0} := by
      intro x hx
      obtain ⟨p, hp, hpx⟩ := exists_find_of_mem _ x (List.mem_toFinset.mp hx)
      rw [Finset.mem_singleton, ← hpx]
      exact hall p 0 (by omega) hpos
    have hle := Finset.card_le_card hsub
    rw [Finset.card_singleton] at hle
    have hne : 0 < (spanning_tree K indptr indices weights m nnz).1.toFinset.card := by
      apply Finset.card_pos.mpr
      exact ⟨_, List.mem_toFinset.mpr (find_mem _ 0 (by omega))⟩
    omega

theorem getElem?_eq_find (cur : List Nat) (p : Nat) (h : p < cur.length) :
    cur[p]? = some (find cur p) := by
  rw [find_eq_getElem cur p h]
  exact List.getElem?_eq_getElem h

/-- The merge loop of the modelled dendrogram builder does not fail on the remaining
edges of a list that is, as a set and in length, a forest over the m points. -/
theorem merge_edges_ok {V : Type} (m : Nat) (comp : List Nat) (tree : List (Edge V))
    (hT : Represents m comp tree) (hTc : comp.toFinset.card + tree.length = m) :
    ∀ (rest : List (Edge V)) (cur sizes : List Nat) (done : List (Edge V)),
      (∀ e, e ∈ done ++ rest ↔ e ∈ tree) → (done ++ rest).length = tree.length →
      Represents m cur done → cur.toFinset.card + done.length = m →
      sizes.length = done.length → (∀ x ∈ cur, x < m + done.length) →
      ∃ merges, merge_edges m cur sizes rest = Except.ok merges := by
  intro rest
  induction rest with
  | nil => intro cur sizes done _ _ _ _ _ _; exact ⟨[], rfl⟩
  | cons e rest ih =>
    intro cur sizes done hmem hlen hR hcard hsz hfresh
    have he : e.row < m ∧ e.col < m := hT.valid e ((hmem e).mp (by simp))
    have hcl := hR.len
    have happ : done ++ e :: rest = (done ++ [e]) ++ rest := by simp
    have hrestv : ∀ e2 ∈ rest, e2.row < m ∧ e2.col < m :=
      fun e2 h2 => hT.valid e2 ((hmem e2).mp (by simp [h2]))
    unfold merge_edges
    rw [getElem?_eq_find cur e.row (by omega), getElem?_eq_find cur e.col (by omega)]
    simp only
    by_cases heq : find cur e.row = find cur e.col
    · exfalso
      obtain ⟨cur2, k2, h1, h2, h3⟩ := represents_extend m rest cur (done ++ [e])
        done.length (represents_skip m cur done e hR he.1 he.2 heq) hrestv hcard
      rw [← happ] at h1
      have hc := card_eq_of_represents m cur2 comp _ _ h1 hT
        (fun p q => connected_by_congr _ _ hmem p q)
      simp only [List.length_append, List.length_cons] at hlen
      omega
    · rw [if_neg heq]
      have hfr : ∀ x ∈ cur, x = m + sizes.length →
          x = find cur e.row ∨ x = find cur e.col := by
        intro x hx hxe
        have := hfresh x hx
        omega
      have hcr := card_relabel cur _ _ (m + sizes.length)
        (find_mem cur e.row (by omega)) (find_mem cur e.col (by omega)) heq hfr
      obtain ⟨merges, hm⟩ := ih (relabel cur (find cur e.row) (find cur e.col)
          (m + sizes.length))
        (sizes ++ [node_size m sizes (find cur e.row) + node_size m sizes (find cur e.col)])
        (done ++ [e])
        (by rw [← happ]; exact hmem) (by rw [← happ]; exact hlen)
        (represents_union m cur done e _ hR he.1 he.2 hfr)
        (by simp only [List.length_append, List.length_singleton]; omega)
        (by simp only [List.length_append, List.length_singleton]; omega)
        (by
          intro y hy
          obtain ⟨x, hx, hxy⟩ := (mem_relabel _ _ _ _ _).mp hy
          have := hfresh x hx
          simp only [List.length_append, List.length_singleton]
          by_cases h : x = find cur e.row ∨ x = find cur e.col
          · rw [if_pos h] at hxy; omega
          · rw [if_neg h] at hxy; omega)
      rw [hm]
      exact ⟨_, rfl⟩

/-- The merges a successful merge loop lists, replayed from the same state: one entry
per edge, and replaying the first j of them keeps the number of points, removes exactly j
cluster ids and only uses node ids below m + (merges before) + j. -/
theorem replay_of_merge_edges {V : Type} (m : Nat) :
    ∀ (es : List (Edge V)) (cur sizes : List Nat) (merges : List (Nat × Nat × V × Nat)),
      merge_edges m cur sizes es = Except.ok merges →
      (∀ x ∈ cur, x < m + sizes.length) →
      merges.length = es.length ∧
      ∀ j, j ≤ merges.length →
        (replay_merges m sizes.length cur
          ((merges.map fun t => (t.1, t.2.1)).take j)).length = cur.length ∧
        (replay_merges m sizes.length cur
          ((merges.map fun t => (t.1, t.2.1)).take j)).toFinset.card + j =
            cur.toFinset.card ∧
        ∀ x ∈ replay_merges m sizes.length cur
          ((merges.map fun t => (t.1, t.2.1)).take j), x < m + sizes.length + j := by
  intro es
  induction es with
  | nil =>
    intro cur sizes merges h hfresh
    simp only [merge_edges, Except.ok.injEq] at h
    subst h
    refine ⟨rfl, ?_⟩
    intro j hj
    simp only [List.length_nil, Nat.le_zero_eq] at hj
    subst hj
    refine ⟨by simp [replay_merges], by simp [replay_merges], ?_⟩
    intro x hx
    simp only [List.map_nil, List.take_nil, replay_merges] at hx
    have := hfresh x hx
    omega
  | cons e es ih =>
    intro cur sizes merges h hfresh
    unfold merge_edges at h
    split at h
    · rename_i a b ha hb
      split at h
      · cases h
      · rename_i hab
        dsimp only at h
        split at h
        · cases h
        · rename_i rest hrest
          simp only [Except.ok.injEq] at h
          subst h
          have hain : a ∈ cur := List.getElem?_mem ha
          have hbin : b ∈ cur := List.getElem?_mem hb
          have hfr : ∀ x ∈ cur, x = m + sizes.length → x = a ∨ x = b := by
            intro x hx hxe
            have := hfresh x hx
            omega
          have hcr := card_relabel cur a b (m + sizes.length) hain hbin hab hfr
          have hfresh2 : ∀ x ∈ relabel cur a b (m + sizes.length),
              x < m + (sizes ++ [node_size m sizes a + node_size m sizes b]).length := by
            intro y hy
            obtain ⟨x, hx, hxy⟩ := (mem_relabel _ _ _ _ _).mp hy
            have := hfresh x hx
            simp only [List.length_append, List.length_singleton]
            by_cases h : x = a ∨ x = b
            · rw [if_pos h] at hxy; omega
            · rw [if_neg h] at hxy; omega
          obtain ⟨hl, hrec⟩ := ih _ _ rest hrest hfresh2
          refine ⟨by simp [hl], ?_⟩
          intro j hj
          cases j with
          | zero =>
            refine ⟨by simp [replay_merges], by simp [replay_merges], ?_⟩
            intro x hx
            simp only [List.take_zero, replay_merges] at hx
            have := hfresh x hx
            omega
          | succ j =>
            simp only [List.length_cons] at hj
            obtain ⟨h1, h2, h3⟩ := hrec j (by omega)
            simp only [List.length_append, List.length_singleton] at h1 h2 h3
            simp only [List.map_cons, List.take_succ_cons, replay_merges]
            refine ⟨?_, ?_, ?_⟩
            · rw [h1, relabel_length]
            · omega
            · intro x hx
              have := h3 x hx
              omega
    · cases h

theorem child_pairs_flatMap {V : Type} (merges : List (Nat × Nat × V × Nat)) :
    child_pairs (merges.flatMap fun t => [t.1, t.2.1]) = merges.map fun t => (t.1, t.2.1) := by
  induction merges with
  | nil => rfl
  | cons t rest ih =>
    show child_pairs (t.1 :: t.2.1 :: (rest.flatMap fun t => [t.1, t.2.1])) = _
    simp only [child_pairs, List.map_cons, ih]

theorem edges_of_maps {V : Type} (es : List (Edge V)) :
    edges_of (es.map Edge.row) (es.map Edge.col) (es.map Edge.weight) es.length = es := by
  unfold edges_of
  rw [List.zip_map', List.zip_map']
  have hlen : (es.map fun a => (a.row, a.col, a.weight)).length ≤ es.length := by simp
  rw [List.take_of_length_le hlen, List.map_map]
  conv_rhs => rw [← List.map_id es]
  apply List.map_congr_left
  intro e _
  rfl

/-- Labels obtained by numbering the distinct ids of a mapping, ascending: as many labels
as points, every label below the number of distinct ids, and as many distinct labels as
distinct ids. -/
theorem dense_labels (cur : List Nat) (bound : Nat) (hb : ∀ x ∈ cur, x < bound) :
    (cur.map fun r => ((List.range bound).filter fun r => r ∈ cur).indexOf r).length =
      cur.length ∧
    (∀ l ∈ cur.map fun r => ((List.range bound).filter fun r => r ∈ cur).indexOf r,
      l < cur.toFinset.card) ∧
    (cur.map fun r => ((List.range bound).filter fun r => r ∈ cur).indexOf r).toFinset.card =
      cur.toFinset.card := by
  have hmem : ∀ x, x ∈ (List.range bound).filter (fun r => r ∈ cur) ↔ x ∈ cur := by
    intro x
    simp only [List.mem_filter, List.mem_range, decide_eq_true_eq]
    exact ⟨fun h => h.2, fun h => ⟨hb x h, h⟩⟩
  have hnd : ((List.range bound).filter fun r => r ∈ cur).Nodup :=
    List.Nodup.filter _ (List.nodup_range bound)
  have hlen : ((List.range bound).filter fun r => r ∈ cur).length = cur.toFinset.card := by
    rw [← List.toFinset_card_of_nodup hnd]
    congr 1
    ext x
    simp only [List.mem_toFinset]
    exact hmem x
  refine ⟨by simp, ?_, ?_⟩
  · intro l hl
    obtain ⟨r, hr, hrl⟩ := List.mem_map.mp hl
    rw [← hrl, ← hlen]
    exact List.indexOf_lt_length.mpr ((hmem r).mpr hr)
  · have himg : (cur.map fun r =>
        ((List.range bound).filter fun r => r ∈ cur).indexOf r).toFinset =
        cur.toFinset.image
          (fun r => ((List.range bound).filter fun r => r ∈ cur).indexOf r) := by
      ext y
      simp only [List.mem_toFinset, List.mem_map, Finset.mem_image]
    rw [himg]
    apply Finset.card_image_of_injOn
    intro x hx y hy hxy
    simp only [Finset.mem_coe, List.mem_toFinset] at hx hy
    exact (List.indexOf_inj ((hmem x).mpr hx) ((hmem y).mpr hy)).mp hxy

theorem graph_builder_valid {V M : Type} (K : Collaborators V M) (d : LinkageDistance)
    (X : List V) (m n : Nat) (metric : M) (c : Int)
    (hknn : d = LinkageDistance.KNN_GRAPH →
      ∀ j ∈ (K.neighbor_graph X m n metric c).2.1, j < m) :
    ∀ j ∈ (graph_builder K d X m n metric c).2.1, j < m := by
  intro j hj
  cases d with
  | PAIRWISE =>
    simp only [graph_builder] at hj
    obtain ⟨_, _, h⟩ := List.mem_flatMap.mp hj
    simpa using h
  | KNN_GRAPH => exact hknn rfl j hj

/-- The modelled dendrogram builder and cluster extractor on the output of the modelled
MST constructor: the builder returns, and the labels the extractor derives from its
children array number m, lie below n_clusters and take n_clusters distinct values. -/
theorem dendrogram_and_labels {V M : Type} [LinearOrder V] (K : Collaborators V M)
    (indptr indices : List Nat) (weights : List V) (m nnz : Nat) (old : List Nat)
    (cs ds ss : Nat) (k : Nat)
    (hidx : ∀ j ∈ indices, j < m) (hm : 1 ≤ m) (hk1 : 1 ≤ k) (hk2 : k ≤ m) :
    ∃ children delta size,
      dendrogram_builder (mst_constructor K indptr indices weights m nnz).1
        (mst_constructor K indptr indices weights m nnz).2.1
        (mst_constructor K indptr indices weights m nnz).2.2
        (mst_constructor K indptr indices weights m nnz).1.length cs ds ss =
        Except.ok (children, delta, size) ∧
      children.length = 2 * (m - 1) ∧
      (cluster_extractor old children (k : Int) m).length = m ∧
      (∀ l ∈ cluster_extractor old children (k : Int) m, l < k) ∧
      (cluster_extractor old children (k : Int) m).toFinset.card = k := by
  obtain ⟨hst, htl⟩ := spanning_tree_state K indptr indices weights m nnz hidx
  have hperm := List.perm_insertionSort edge_le
    (spanning_tree K indptr indices weights m nnz).2
  have hslen := hperm.length_eq
  obtain ⟨merges, hmerge⟩ := merge_edges_ok m _ _ hst.rep hst.count
    (List.insertionSort edge_le (spanning_tree K indptr indices weights m nnz).2)
    (List.range m) [] []
    (fun e => by simp) (by simp)
    (forest_init m).rep
    (by rw [List.toFinset_card_of_nodup (List.nodup_range m)]; simp)
    rfl (fun x hx => by simpa using hx)
  obtain ⟨hml, hrep⟩ := replay_of_merge_edges m _ _ _ merges hmerge
    (fun x hx => by simpa using hx)
  have hn : (mst_constructor K indptr indices weights m nnz).1.length + 1 = m := by
    simp only [mst_constructor, List.length_map]
    omega
  have hedges : edges_of (mst_constructor K indptr indices weights m nnz).1
      (mst_constructor K indptr indices weights m nnz).2.1
      (mst_constructor K indptr indices weights m nnz).2.2
      (mst_constructor K indptr indices weights m nnz).1.length =
      List.insertionSort edge_le (spanning_tree K indptr indices weights m nnz).2 := by
    simp only [mst_constructor, List.length_map]
    exact edges_of_maps _
  refine ⟨merges.flatMap (fun t => [t.1, t.2.1]), merges.map (fun t => t.2.2.1),
    merges.map (fun t => t.2.2.2), ?_, ?_, ?_⟩
  · unfold dendrogram_builder
    rw [hn, hedges, hmerge]
  · have : ∀ l : List (Nat × Nat × V × Nat),
        (l.flatMap fun t => [t.1, t.2.1]).length = 2 * l.length := by
      intro l
      induction l with
      | nil => rfl
      | cons t rest ih =>
        show (t.1 :: t.2.1 :: (rest.flatMap fun t => [t.1, t.2.1])).length = _
        simp only [List.length_cons, ih]
        omega
    rw [this, hml, hslen, htl]
  · obtain ⟨h1, h2, h3⟩ := hrep (m - k) (by omega)
    have hkept : (m - 1) - (((k : Int)).toNat - 1) = m - k := by
      simp only [Int.toNat_ofNat]
      omega
    have hcur : cluster_extractor old (merges.flatMap fun t => [t.1, t.2.1]) (k : Int) m =
        (replay_merges m 0 (List.range m)
          ((merges.map fun t => (t.1, t.2.1)).take (m - k))).map fun r =>
          ((List.range (2 * m)).filter fun r => r ∈ replay_merges m 0 (List.range m)
            ((merges.map fun t => (t.1, t.2.1)).take (m - k))).indexOf r := by
      unfold cluster_extractor
      rw [child_pairs_flatMap, hkept]
    simp only [List.length_nil, List.length_range, Nat.add_zero] at h1 h2 h3
    have hrange : (List.range m).toFinset.card = m := by
      rw [List.toFinset_card_of_nodup (List.nodup_range m)]; simp
    have hcard : (replay_merges m 0 (List.range m)
        ((merges.map fun t => (t.1, t.2.1)).take (m - k))).toFinset.card = k := by
      omega
    obtain ⟨d1, d2, d3⟩ := dense_labels (replay_merges m 0 (List.range m)
        ((merges.map fun t => (t.1, t.2.1)).take (m - k))) (2 * m)
      (fun x hx => by have := h3 x hx; omega)
    rw [hcur]
    rw [hcard] at d2 d3
    exact ⟨by rw [d1, h1], d2, d3⟩

theorem nodup_of_card_eq_length (l : List Nat) (h : l.toFinset.card = l.length) : l.Nodup := by
  have := (Multiset.toFinset_card_eq_card_iff_nodup (m := (l : Multiset Nat))).mp
    (by simpa using h)
  simpa using this

theorem all_equal_of_card_eq_one (l : List Nat) (h : l.toFinset.card = 1) :
    ∀ a ∈ l, ∀ b ∈ l, a = b := by
  obtain ⟨x, hx⟩ := Finset.card_eq_one.mp h
  intro a ha b hb
  have ha2 : a ∈ l.toFinset := List.mem_toFinset.mpr ha
  have hb2 : b ∈ l.toFinset := List.mem_toFinset.mpr hb
  rw [hx, Finset.mem_singleton] at ha2 hb2
  rw [ha2, hb2]

theorem cheapest_outgoing {V : Type} [LinearOrder V] (comp : List Nat) (edges : List (Edge V))
    (c : Nat) (e : Edge V) (h : cheapest comp edges c = some e) :
    find comp e.row ≠ find comp e.col := by
  unfold cheapest at h
  rcases cheapest_fold_mem _ none e h with h1 | h1
  · cases h1
  · have := (List.mem_filter.mp h1).2
    simp only [decide_eq_true_eq] at this
    exact this.1

theorem contract_edge_tree_length {V : Type} (st : List Nat × List (Edge V)) (e : Edge V) :
    st.2.length ≤ (contract_edge st e).2.length := by
  unfold contract_edge
  split
  · exact Nat.le_refl _
  · simp

theorem foldl_contract_tree_length {V : Type} (es : List (Edge V)) :
    ∀ st : List Nat × List (Edge V), st.2.length ≤ (es.foldl contract_edge st).2.length := by
  induction es with
  | nil => intro st; exact Nat.le_refl _
  | cons e es ih =>
    intro st
    simp only [List.foldl_cons]
    exact (contract_edge_tree_length st e).trans (ih _)

/-- The bound m on the number of rounds is enough: when the rounds of the modelled MST
constructor stop, no component has an outgoing real edge left. -/
theorem boruvka_rounds_exhaust {V : Type} [LinearOrder V] (m : Nat) (edges : List (Edge V))
    (hval : ∀ e ∈ edges, e.row < m ∧ e.col < m) :
    ∀ (fuel : Nat) (st : List Nat × List (Edge V)), ForestState m st →
      st.1.toFinset.card ≤ fuel + 1 →
      (representatives (boruvka_rounds edges fuel st).1).filterMap
        (cheapest (boruvka_rounds edges fuel st).1 edges) = [] := by
  have hsel : ∀ st : List Nat × List (Edge V), ForestState m st →
      ∀ e sel, (representatives st.1).filterMap (cheapest st.1 edges) = e :: sel →
      (∀ e2 ∈ e :: sel, e2.row < m ∧ e2.col < m) ∧
      2 ≤ st.1.toFinset.card ∧
      ((e :: sel).foldl contract_edge st).1.toFinset.card + 1 ≤ st.1.toFinset.card := by
    intro st hS e sel hsel
    have hv : ∀ e2 ∈ e :: sel, e2.row < m ∧ e2.col < m := by
      intro e2 he2
      rw [← hsel] at he2
      obtain ⟨c, _, hc⟩ := List.mem_filterMap.mp he2
      exact hval e2 (cheapest_mem st.1 edges c e2 hc)
    have hout : find st.1 e.row ≠ find st.1 e.col := by
      have he : e ∈ (representatives st.1).filterMap (cheapest st.1 edges) := by
        rw [hsel]; simp
      obtain ⟨c, _, hc⟩ := List.mem_filterMap.mp he
      exact cheapest_outgoing st.1 edges c e hc
    have hlen := hS.rep.len
    have hev := hv e (by simp)
    refine ⟨hv, ?_, ?_⟩
    · have h2 : ({find st.1 e.row, find st.1 e.col} : Finset Nat) ⊆ st.1.toFinset := by
        intro x hx
        simp only [Finset.mem_insert, Finset.mem_singleton] at hx
        rcases hx with h | h
        · rw [h]; exact List.mem_toFinset.mpr (find_mem st.1 _ (by omega))
        · rw [h]; exact List.mem_toFinset.mpr (find_mem st.1 _ (by omega))
      have h3 := Finset.card_le_card h2
      rw [Finset.card_pair hout] at h3
      exact h3
    · have hS2 := forest_foldl m (e :: sel) st hS hv
      have hc1 := hS.count
      have hc2 := hS2.count
      have h4 : st.2.length + 1 ≤ ((e :: sel).foldl contract_edge st).2.length := by
        simp only [List.foldl_cons]
        refine Nat.le_trans ?_ (foldl_contract_tree_length sel _)
        rw [contract_edge_of_ne st e hout]
        simp
      omega
  intro fuel
  induction fuel with
  | zero =>
    intro st hS hcard
    simp only [boruvka_rounds]
    cases hsel2 : (representatives st.1).filterMap (cheapest st.1 edges) with
    | nil => rfl
    | cons e sel =>
      have := (hsel st hS e sel hsel2).2.1
      omega
  | succ fuel ih =>
    intro st hS hcard
    cases hsel2 : (representatives st.1).filterMap (cheapest st.1 edges) with
    | nil =>
      have hb : boruvka_rounds edges (fuel + 1) st = st := by
        simp only [boruvka_rounds, hsel2]
      rw [hb]; exact hsel2
    | cons e sel =>
      have hb : boruvka_rounds edges (fuel + 1) st =
          boruvka_rounds edges fuel ((e :: sel).foldl contract_edge st) := by
        simp only [boruvka_rounds, hsel2]
      rw [hb]
      obtain ⟨hv, _, hdec⟩ := hsel st hS e sel hsel2
      exact ih _ (forest_foldl m (e :: sel) st hS hv) (by omega)

/-- In the modelled MST constructor the rounds run to their end: in the state the bridges
start from, no component has an outgoing real edge. -/
theorem spanning_tree_rounds_complete {V : Type} [LinearOrder V]
    (indptr indices : List Nat) (weights : List V) (m nnz : Nat)
    (hidx : ∀ j ∈ indices, j < m) :
    (representatives (boruvka_rounds
        ((csr_edges indptr indices weights m nnz).filter fun e => e.row ≠ e.col) m
        (List.range m, [])).1).filterMap
      (cheapest (boruvka_rounds
        ((csr_edges indptr indices weights m nnz).filter fun e => e.row ≠ e.col) m
        (List.range m, [])).1
        ((csr_edges indptr indices weights m nnz).filter fun e => e.row ≠ e.col)) = [] := by
  apply boruvka_rounds_exhaust m _ _ m _ (forest_init m)
  · show (List.range m).toFinset.card ≤ m + 1
    rw [List.toFinset_card_of_nodup (List.nodup_range m)]
    simp
  · intro e he
    exact csr_edges_valid indptr indices weights m nnz hidx e (List.mem_filter.mp he).1

/-! ## The claims on the orchestrator -/

/-- Claim C1: for every m and every n_clusters (a value of type int) with n_clusters > m,
single_linkage ends in the precondition error at once: no stage is called and the output
record, labels included, is the record that was passed. -/
theorem single_linkage_rejects_above_m {I V M : Type} (S : Stages I V M)
    (d : LinkageDistance) (X : List V) (m n : Nat) (metric : M) (out : linkage_output I)
    (c k : Int) (hk : is_int k) (h : (m : Int) < k) :
    rejected (single_linkage S d X m n metric out c k) out := by
  apply rejected_of_assert_failed
  rw [int_to_size_t_of_nonneg k (by omega) hk]
  omega

theorem single_linkage_rejects_above_m_witness :
    is_int 3 ∧ ((2 : Nat) : Int) < 3 ∧
    rejected (single_linkage (spec_stages line_collaborators) LinkageDistance.PAIRWISE
      [0, 7] 2 1 () (fresh_output [9, 9] [7, 7]) 0 3) (fresh_output [9, 9] [7, 7]) :=
  ⟨by decide, by decide,
   single_linkage_rejects_above_m (spec_stages line_collaborators)
     LinkageDistance.PAIRWISE [0, 7] 2 1 () (fresh_output [9, 9] [7, 7]) 0 3
     (by decide) (by decide)⟩

/-- Claim C2, refuted as stated: with m = 1 and n_clusters = 0 (so m >= 1 and
n_clusters < 1) the call is not rejected: the pipeline runs, all four stages are called
and the call ends normally with labels written. -/
theorem n_clusters_zero_accepted :
    (1 : Nat) ≥ 1 ∧ (0 : Int) < 1 ∧
    ¬ rejected (single_linkage (spec_stages line_collaborators) LinkageDistance.PAIRWISE
      [5] 1 1 () (fresh_output [9] []) 0 0) (fresh_output [9] []) ∧
    (single_linkage (spec_stages line_collaborators) LinkageDistance.PAIRWISE
      [5] 1 1 () (fresh_output [9] []) 0 0).status = Except.ok () ∧
    (single_linkage (spec_stages line_collaborators) LinkageDistance.PAIRWISE
      [5] 1 1 () (fresh_output [9] []) 0 0).calls.length = 4 ∧
    (single_linkage (spec_stages line_collaborators) LinkageDistance.PAIRWISE
      [5] 1 1 () (fresh_output [9] []) 0 0).out.labels = [0] := by
  refine ⟨by decide, by decide, ?_, rfl, by decide, by decide⟩
  exact not_rejected_of_entered _ _ LinkageDistance.PAIRWISE [5] 1 1 () 0
    (entered_of_assert_passed _ _ _ _ _ _ _ _ _ (by decide))

/-- Claim C2, amended: for every m >= 1 below 2^64 - 2^31 and every n_clusters of type
int, single_linkage ends in the precondition error without running the pipeline exactly
when n_clusters < 0 or n_clusters > m, and it enters the pipeline exactly when
0 <= n_clusters <= m: the accepted range of n_clusters is [0, m]. -/
theorem single_linkage_accepted_range {I V M : Type} (S : Stages I V M)
    (d : LinkageDistance) (X : List V) (m n : Nat) (metric : M) (out : linkage_output I)
    (c k : Int) (hk : is_int k) (hm : 1 ≤ m) (hm2 : m < 2 ^ 64 - 2 ^ 31) :
    (rejected (single_linkage S d X m n metric out c k) out ↔ (k < 0 ∨ (m : Int) < k)) ∧
    (entered_pipeline (single_linkage S d X m n metric out c k) d X m n metric c ↔
      (0 ≤ k ∧ k ≤ (m : Int))) := by
  have key : int_to_size_t k ≤ m ↔ (0 ≤ k ∧ k ≤ (m : Int)) := by
    by_cases h0 : 0 ≤ k
    · rw [int_to_size_t_of_nonneg k h0 hk]; omega
    · have h1 := int_to_size_t_of_neg k (by omega) hk
      have h2 := hk.1
      unfold INT_MIN at h2
      norm_num at h1 h2 hm2
      omega
  constructor
  · constructor
    · intro hr
      by_contra hcon
      have hpass : int_to_size_t k ≤ m := key.mpr (by omega)
      exact not_rejected_of_entered _ out d X m n metric c
        (entered_of_assert_passed S d X m n metric out c k hpass) hr
    · intro h
      apply rejected_of_assert_failed
      rw [key]; omega
  · constructor
    · intro he
      by_contra hcon
      have hfail : ¬ int_to_size_t k ≤ m := by rw [key]; exact hcon
      exact not_rejected_of_entered _ out d X m n metric c he
        (rejected_of_assert_failed S d X m n metric out c k hfail)
    · intro h
      exact entered_of_assert_passed S d X m n metric out c k (key.mpr h)

theorem single_linkage_accepted_range_witness :
    is_int 0 ∧ 1 ≤ 1 ∧ 1 < 2 ^ 64 - 2 ^ 31 ∧
    ((rejected (single_linkage (spec_stages line_collaborators) LinkageDistance.PAIRWISE
        [5] 1 1 () (fresh_output [9] []) 0 0) (fresh_output [9] []) ↔
        ((0 : Int) < 0 ∨ ((1 : Nat) : Int) < 0)) ∧
     (entered_pipeline (single_linkage (spec_stages line_collaborators)
        LinkageDistance.PAIRWISE [5] 1 1 () (fresh_output [9] []) 0 0)
        LinkageDistance.PAIRWISE [5] 1 1 () 0 ↔
        ((0 : Int) ≤ 0 ∧ (0 : Int) ≤ ((1 : Nat) : Int)))) :=
  ⟨by decide, by decide, by decide,
   single_linkage_accepted_range (spec_stages line_collaborators)
     LinkageDistance.PAIRWISE [5] 1 1 () (fresh_output [9] []) 0 0
     (by decide) (by decide) (by decide)⟩

/-- Claim C3, refuted as stated: with m = 0 and n_clusters = 0 the call is not rejected:
the pipeline runs, all four stages are called and the call ends normally. -/
theorem no_points_zero_clusters_accepted :
    ¬ rejected (single_linkage (spec_stages line_collaborators) LinkageDistance.PAIRWISE
      [] 0 1 () (fresh_output [] []) 0 0) (fresh_output [] []) ∧
    (single_linkage (spec_stages line_collaborators) LinkageDistance.PAIRWISE
      [] 0 1 () (fresh_output [] []) 0 0).status = Except.ok () ∧
    (single_linkage (spec_stages line_collaborators) LinkageDistance.PAIRWISE
      [] 0 1 () (fresh_output [] []) 0 0).calls.length = 4 := by
  refine ⟨?_, rfl, by decide⟩
  exact not_rejected_of_entered _ _ LinkageDistance.PAIRWISE [] 0 1 () 0
    (entered_of_assert_passed _ _ _ _ _ _ _ _ _ (by decide))

/-- Claim C3, amended: for m = 0 and every n_clusters of type int other than 0,
single_linkage ends in the precondition error and produces nothing (no stage is called,
the output record is the one passed); for m = 0 and n_clusters = 0 the check passes and
the pipeline is entered. -/
theorem single_linkage_no_points {I V M : Type} (S : Stages I V M)
    (d : LinkageDistance) (X : List V) (n : Nat) (metric : M) (out : linkage_output I)
    (c k : Int) (hk : is_int k) :
    (k ≠ 0 → rejected (single_linkage S d X 0 n metric out c k) out) ∧
    (k = 0 → entered_pipeline (single_linkage S d X 0 n metric out c k) d X 0 n metric c) := by
  constructor
  · intro hne
    apply rejected_of_assert_failed
    by_cases h0 : 0 ≤ k
    · rw [int_to_size_t_of_nonneg k h0 hk]; omega
    · have h1 := int_to_size_t_of_neg k (by omega) hk
      have h2 := hk.1
      unfold INT_MIN at h2
      norm_num at h1 h2
      omega
  · intro h0
    subst h0
    exact entered_of_assert_passed S d X 0 n metric out c 0 (by decide)

theorem single_linkage_no_points_witness :
    is_int 1 ∧
    (((1 : Int) ≠ 0 → rejected (single_linkage (spec_stages line_collaborators)
        LinkageDistance.PAIRWISE [] 0 1 () (fresh_output [] []) 0 1) (fresh_output [] [])) ∧
     ((1 : Int) = 0 → entered_pipeline (single_linkage (spec_stages line_collaborators)
        LinkageDistance.PAIRWISE [] 0 1 () (fresh_output [] []) 0 1)
        LinkageDistance.PAIRWISE [] 0 1 () 0)) :=
  ⟨by decide,
   single_linkage_no_points (spec_stages line_collaborators)
     LinkageDistance.PAIRWISE [] 1 () (fresh_output [] []) 0 1 (by decide)⟩

/-- Claim C4, evaluated at a failing input: on four points with two clusters the call
ends normally and the dendrogram handed to the extraction is [0, 1, 2, 3, 4, 5], yet the
children member of the output record still holds the caller's 7s, and the members
n_leaves, m and n_clusters still hold the caller's zeros instead of 4, 4 and 2. -/
theorem four_point_run_children_not_stored :
    four_point_run.status = Except.ok () ∧
    four_point_run.calls.getLast? =
      some (StageCall.extract_flattened_clusters [9, 9, 9, 9] [0, 1, 2, 3, 4, 5] 2 4) ∧
    four_point_run.out.children = [7, 7, 7, 7, 7, 7] ∧
    four_point_run.out.n_leaves = 0 ∧
    four_point_run.out.m = 0 ∧
    four_point_run.out.n_clusters = 0 ∧
    four_point_run.out.labels = [0, 0, 1, 1] :=
  ⟨rfl, by decide, by decide, by decide, by decide, by decide, by decide⟩

/-- Claim C5, evaluated at a failing input: on a graph of four points without edges the
call ends normally, the graph handed to the MST constructor has four components, and the
member n_connected_components of the output record still holds the caller's zero. -/
theorem four_component_run_count_not_stored :
    four_component_run.status = Except.ok () ∧
    four_component_run.calls.get? 1 =
      some (StageCall.build_sorted_mst [0, 0, 0, 0, 0] [] [] 4 0) ∧
    disconnected_components [0, 0, 0, 0, 0] [] ([] : List Nat) 4 0 = 4 ∧
    four_component_run.out.n_connected_components = 0 :=
  ⟨rfl, by decide, by decide, by decide⟩

/-- Claim C6: for every m >= 1 and every n_clusters in [1, m], single_linkage on the
stages of the specification ends normally and the labels it writes are m in number, all
lie in [0, n_clusters), and take exactly n_clusters distinct values; so for
n_clusters = 1 all labels are equal and for n_clusters = m they are pairwise distinct.
In KNN-graph mode the neighbour-graph provider is assumed to return column ids that are
point ids. -/
theorem single_linkage_label_count {V M : Type} [LinearOrder V] (K : Collaborators V M)
    (d : LinkageDistance) (X : List V) (m n : Nat) (metric : M) (out : linkage_output Nat)
    (c k : Int) (hk : is_int k) (hm : 1 ≤ m) (hk1 : 1 ≤ k) (hk2 : k ≤ (m : Int))
    (hknn : d = LinkageDistance.KNN_GRAPH →
      ∀ j ∈ (K.neighbor_graph X m n metric c).2.1, j < m) :
    (single_linkage (spec_stages K) d X m n metric out c k).status = Except.ok () ∧
    (single_linkage (spec_stages K) d X m n metric out c k).out.labels.length = m ∧
    (∀ l ∈ (single_linkage (spec_stages K) d X m n metric out c k).out.labels,
      (0 : Int) ≤ (l : Int) ∧ (l : Int) < k) ∧
    ((single_linkage (spec_stages K) d X m n metric out c k).out.labels.toFinset.card : Int)
      = k ∧
    (k = 1 → ∀ a ∈ (single_linkage (spec_stages K) d X m n metric out c k).out.labels,
      ∀ b ∈ (single_linkage (spec_stages K) d X m n metric out c k).out.labels, a = b) ∧
    (k = (m : Int) →
      (single_linkage (spec_stages K) d X m n metric out c k).out.labels.Nodup) := by
  have hpre : int_to_size_t k ≤ m := by
    rw [int_to_size_t_of_nonneg k (by omega) hk]; omega
  obtain ⟨kn, hkn⟩ : ∃ kn : Nat, k = (kn : Int) := ⟨k.toNat, by omega⟩
  subst hkn
  have hidx := graph_builder_valid K d X m n metric c hknn
  obtain ⟨children, delta, size, hd, _, h1, h2, h3⟩ :=
    dendrogram_and_labels K (graph_builder K d X m n metric c).1
      (graph_builder K d X m n metric c).2.1 (graph_builder K d X m n metric c).2.2
      m (graph_builder K d X m n metric c).2.1.length out.labels
      (2 * (mst_constructor K (graph_builder K d X m n metric c).1
        (graph_builder K d X m n metric c).2.1 (graph_builder K d X m n metric c).2.2
        m (graph_builder K d X m n metric c).2.1.length).1.length)
      (mst_constructor K (graph_builder K d X m n metric c).1
        (graph_builder K d X m n metric c).2.1 (graph_builder K d X m n metric c).2.2
        m (graph_builder K d X m n metric c).2.1.length).1.length
      (mst_constructor K (graph_builder K d X m n metric c).1
        (graph_builder K d X m n metric c).2.1 (graph_builder K d X m n metric c).2.2
        m (graph_builder K d X m n metric c).2.1.length).1.length
      kn hidx hm (by omega) (by omega)
  have hchain : forward_chain (spec_stages K) d X m n metric out.labels c (kn : Int)
      (graph_builder K d X m n metric c).1 (graph_builder K d X m n metric c).2.1
      (graph_builder K d X m n metric c).2.2
      (mst_constructor K (graph_builder K d X m n metric c).1
        (graph_builder K d X m n metric c).2.1 (graph_builder K d X m n metric c).2.2
        m (graph_builder K d X m n metric c).2.1.length).1
      (mst_constructor K (graph_builder K d X m n metric c).1
        (graph_builder K d X m n metric c).2.1 (graph_builder K d X m n metric c).2.2
        m (graph_builder K d X m n metric c).2.1.length).2.1
      (mst_constructor K (graph_builder K d X m n metric c).1
        (graph_builder K d X m n metric c).2.1 (graph_builder K d X m n metric c).2.2
        m (graph_builder K d X m n metric c).2.1.length).2.2
      children (cluster_extractor out.labels children (kn : Int) m) :=
    ⟨rfl, rfl, ⟨delta, size, hd⟩, rfl⟩
  obtain ⟨hs, hl, _⟩ := single_linkage_of_chain (spec_stages K) d X m n metric
    out c (kn : Int) hpre _ _ _ _ _ _ _ _ hchain
  rw [hl]
  refine ⟨hs, h1, ?_, by rw [h3], ?_, ?_⟩
  · intro l hl2
    have := h2 l hl2
    omega
  · intro hk1
    exact all_equal_of_card_eq_one _ (by rw [h3]; omega)
  · intro hkm
    exact nodup_of_card_eq_length _ (by rw [h3, h1]; omega)

theorem single_linkage_label_count_witness :
    is_int 2 ∧ 1 ≤ 4 ∧ (1 : Int) ≤ 2 ∧ (2 : Int) ≤ ((4 : Nat) : Int) ∧
    (LinkageDistance.KNN_GRAPH = LinkageDistance.KNN_GRAPH →
      ∀ j ∈ (line_collaborators.neighbor_graph [0, 1, 10, 11] 4 1 () 0).2.1, j < 4) ∧
    ((single_linkage (spec_stages line_collaborators) LinkageDistance.KNN_GRAPH
        [0, 1, 10, 11] 4 1 () (fresh_output [9, 9, 9, 9] [7, 7, 7, 7, 7, 7]) 0 2).status =
        Except.ok () ∧
     (single_linkage (spec_stages line_collaborators) LinkageDistance.KNN_GRAPH
        [0, 1, 10, 11] 4 1 () (fresh_output [9, 9, 9, 9] [7, 7, 7, 7, 7, 7]) 0 2).out.labels.length
        = 4 ∧
     (∀ l ∈ (single_linkage (spec_stages line_collaborators) LinkageDistance.KNN_GRAPH
        [0, 1, 10, 11] 4 1 () (fresh_output [9, 9, 9, 9] [7, 7, 7, 7, 7, 7]) 0 2).out.labels,
        (0 : Int) ≤ (l : Int) ∧ (l : Int) < 2) ∧
     ((single_linkage (spec_stages line_collaborators) LinkageDistance.KNN_GRAPH
        [0, 1, 10, 11] 4 1 () (fresh_output [9, 9, 9, 9] [7, 7, 7, 7, 7, 7]) 0
        2).out.labels.toFinset.card : Int) = 2 ∧
     ((2 : Int) = 1 → ∀ a ∈ (single_linkage (spec_stages line_collaborators)
        LinkageDistance.KNN_GRAPH [0, 1, 10, 11] 4 1 ()
        (fresh_output [9, 9, 9, 9] [7, 7, 7, 7, 7, 7]) 0 2).out.labels,
        ∀ b ∈ (single_linkage (spec_stages line_collaborators)
        LinkageDistance.KNN_GRAPH [0, 1, 10, 11] 4 1 ()
        (fresh_output [9, 9, 9, 9] [7, 7, 7, 7, 7, 7]) 0 2).out.labels, a = b) ∧
     ((2 : Int) = ((4 : Nat) : Int) → (single_linkage (spec_stages line_collaborators)
        LinkageDistance.KNN_GRAPH [0, 1, 10, 11] 4 1 ()
        (fresh_output [9, 9, 9, 9] [7, 7, 7, 7, 7, 7]) 0 2).out.labels.Nodup)) :=
  ⟨by decide, by decide, by decide, by decide, (by intro _ j hj; cases hj),
   single_linkage_label_count line_collaborators LinkageDistance.KNN_GRAPH
     [0, 1, 10, 11] 4 1 () (fresh_output [9, 9, 9, 9] [7, 7, 7, 7, 7, 7]) 0 2
     (by decide) (by decide) (by decide) (by decide) (by intro _ j hj; cases hj)⟩

/-- Claim C8: for every input that passes the precondition check, the labels written are
the forward composition of the four stages: whenever the chain graph, MST (with
nnz = number of stored indices), dendrogram, extraction passes through some intermediate
values and ends in some labels, the run ends normally, writes exactly those labels and
calls each stage exactly once, in order, on the output of the stage before; and every
run that ends normally arises from such a chain. -/
theorem single_linkage_forward_composition {I V M : Type} (S : Stages I V M)
    (d : LinkageDistance) (X : List V) (m n : Nat) (metric : M) (out : linkage_output I)
    (c k : Int) (h : int_to_size_t k ≤ m) :
    (∀ indptr indices pw rows cols data children labels,
      forward_chain S d X m n metric out.labels c k indptr indices pw rows cols data
        children labels →
      (single_linkage S d X m n metric out c k).status = Except.ok () ∧
      (single_linkage S d X m n metric out c k).out.labels = labels ∧
      (single_linkage S d X m n metric out c k).calls =
        [StageCall.get_distance_graph d X m n metric c,
         StageCall.build_sorted_mst indptr indices pw m indices.length,
         StageCall.build_dendrogram_host rows cols data rows.length (2 * rows.length)
           rows.length rows.length,
         StageCall.extract_flattened_clusters out.labels children k m]) ∧
    ((single_linkage S d X m n metric out c k).status = Except.ok () →
      ∃ indptr indices pw rows cols data children,
        forward_chain S d X m n metric out.labels c k indptr indices pw rows cols data
          children (single_linkage S d X m n metric out c k).out.labels) :=
  ⟨fun indptr indices pw rows cols data children labels hc =>
     single_linkage_of_chain S d X m n metric out c k h indptr indices pw rows cols data
       children labels hc,
   fun hs => chain_of_single_linkage S d X m n metric out c k hs⟩

theorem single_linkage_forward_composition_witness :
    int_to_size_t 2 ≤ 4 ∧
    forward_chain (spec_stages line_collaborators) LinkageDistance.PAIRWISE
      [0, 1, 10, 11] 4 1 () [9, 9, 9, 9] 0 2
      [0, 4, 8, 12, 16] [0, 1, 2, 3, 0, 1, 2, 3, 0, 1, 2, 3, 0, 1, 2, 3]
      [0, 1, 10, 11, 1, 0, 9, 10, 10, 9, 0, 1, 11, 10, 1, 0]
      [0, 2, 1] [1, 3, 2] [1, 1, 9] [0, 1, 2, 3, 4, 5] [0, 0, 1, 1] ∧
    four_point_run.status = Except.ok () ∧
    four_point_run.out.labels = [0, 0, 1, 1] ∧
    four_point_run.calls =
      [StageCall.get_distance_graph LinkageDistance.PAIRWISE [0, 1, 10, 11] 4 1 () 0,
       StageCall.build_sorted_mst [0, 4, 8, 12, 16]
         [0, 1, 2, 3, 0, 1, 2, 3, 0, 1, 2, 3, 0, 1, 2, 3]
         [0, 1, 10, 11, 1, 0, 9, 10, 10, 9, 0, 1, 11, 10, 1, 0] 4 16,
       StageCall.build_dendrogram_host [0, 2, 1] [1, 3, 2] [1, 1, 9] 3 6 3 3,
       StageCall.extract_flattened_clusters [9, 9, 9, 9] [0, 1, 2, 3, 4, 5] 2 4] := by
  have hc : forward_chain (spec_stages line_collaborators) LinkageDistance.PAIRWISE
      [0, 1, 10, 11] 4 1 () [9, 9, 9, 9] 0 2
      [0, 4, 8, 12, 16] [0, 1, 2, 3, 0, 1, 2, 3, 0, 1, 2, 3, 0, 1, 2, 3]
      [0, 1, 10, 11, 1, 0, 9, 10, 10, 9, 0, 1, 11, 10, 1, 0]
      [0, 2, 1] [1, 3, 2] [1, 1, 9] [0, 1, 2, 3, 4, 5] [0, 0, 1, 1] :=
    ⟨rfl, rfl, ⟨[1, 1, 9], [2, 2, 4], rfl⟩, rfl⟩
  exact ⟨by decide, hc,
    (single_linkage_forward_composition (spec_stages line_collaborators)
      LinkageDistance.PAIRWISE [0, 1, 10, 11] 4 1 ()
      (fresh_output [9, 9, 9, 9] [7, 7, 7, 7, 7, 7]) 0 2 (by decide)).1
      _ _ _ _ _ _ _ _ hc⟩

/-- Claim C9: in every run the dendrogram buffers are sized from the number of MST edges
returned. Every call of the dendrogram builder is made on the rows, columns and weights
some MST call returned, with n_edges the number of rows and with buffers of 2 * n_edges,
n_edges and n_edges entries, so when the MST has m - 1 edges the builder is asked for
m - 1 merges and children has 2 * (m - 1) entries; the extraction is called with the m
of the run; and such a call of the builder is made whenever the graph and the MST stage
return. -/
theorem dendrogram_buffers_sized_by_edges {I V M : Type} (S : Stages I V M)
    (d : LinkageDistance) (X : List V) (m n : Nat) (metric : M) (out : linkage_output I)
    (c k : Int) :
    (∀ rows cols data n_edges cs ds ss,
      StageCall.build_dendrogram_host rows cols data n_edges cs ds ss ∈
        (single_linkage S d X m n metric out c k).calls →
      (∃ indptr indices pw, S.build_sorted_mst indptr indices pw m indices.length =
        Except.ok (rows, cols, data)) ∧
      n_edges = rows.length ∧ cs = 2 * n_edges ∧ ds = n_edges ∧ ss = n_edges ∧
      (rows.length = m - 1 → n_edges = m - 1 ∧ cs = 2 * (m - 1))) ∧
    (∀ labels children kk mm,
      StageCall.extract_flattened_clusters labels children kk mm ∈
        (single_linkage S d X m n metric out c k).calls → mm = m ∧ kk = k) ∧
    (∀ indptr indices pw rows cols data, int_to_size_t k ≤ m →
      S.get_distance_graph d X m n metric c = Except.ok (indptr, indices, pw) →
      S.build_sorted_mst indptr indices pw m indices.length = Except.ok (rows, cols, data) →
      StageCall.build_dendrogram_host rows cols data rows.length (2 * rows.length)
        rows.length rows.length ∈ (single_linkage S d X m n metric out c k).calls) := by
  refine ⟨?_, ?_, ?_⟩
  · have hr := single_linkage_is_run S d X m n metric out c k
    generalize single_linkage S d X m n metric out c k = r at hr
    intro rows cols data n_edges cs ds ss hmem
    cases hr with
    | assert_failed a => simp at hmem
    | graph_failed e a g => simp at hmem
    | mst_failed _ _ _ e a g t => simp at hmem
    | dendrogram_failed indptr indices pw rows1 cols1 data1 e a g t b =>
      simp at hmem
      obtain ⟨e1, e2, e3, e4, e5, e6, e7⟩ := hmem
      subst e1 e2 e3
      exact ⟨⟨indptr, indices, pw, t⟩, e4, by omega, by omega, by omega,
        fun hl => ⟨by omega, by omega⟩⟩
    | extract_failed indptr indices pw rows1 cols1 data1 _ _ _ e left a g t b x =>
      simp at hmem
      obtain ⟨e1, e2, e3, e4, e5, e6, e7⟩ := hmem
      subst e1 e2 e3
      exact ⟨⟨indptr, indices, pw, t⟩, e4, by omega, by omega, by omega,
        fun hl => ⟨by omega, by omega⟩⟩
    | done indptr indices pw rows1 cols1 data1 _ _ _ _ a g t b x =>
      simp at hmem
      obtain ⟨e1, e2, e3, e4, e5, e6, e7⟩ := hmem
      subst e1 e2 e3
      exact ⟨⟨indptr, indices, pw, t⟩, e4, by omega, by omega, by omega,
        fun hl => ⟨by omega, by omega⟩⟩
  · have hr := single_linkage_is_run S d X m n metric out c k
    generalize single_linkage S d X m n metric out c k = r at hr
    intro labels children kk mm hmem
    cases hr with
    | assert_failed a => simp at hmem
    | graph_failed e a g => simp at hmem
    | mst_failed _ _ _ e a g t => simp at hmem
    | dendrogram_failed _ _ _ _ _ _ e a g t b => simp at hmem
    | extract_failed _ _ _ _ _ _ _ _ _ e left a g t b x =>
      simp at hmem
      exact ⟨hmem.2.2.2, hmem.2.2.1⟩
    | done _ _ _ _ _ _ _ _ _ _ a g t b x =>
      simp at hmem
      exact ⟨hmem.2.2.2, hmem.2.2.1⟩
  · intro indptr indices pw rows cols data h h1 h2
    rw [Nat.mul_comm 2 rows.length]
    rcases h3 : S.build_dendrogram_host rows cols data rows.length (rows.length * 2)
      rows.length rows.length with e | ⟨children, delta, size⟩
    · simp [single_linkage, ASSERT, h, h1, h2, h3]
    · rcases h4 : S.extract_flattened_clusters out.labels children k m with
        ⟨e, left⟩ | labels
      · simp [single_linkage, ASSERT, h, h1, h2, h3, h4]
      · simp [single_linkage, ASSERT, h, h1, h2, h3, h4]

theorem dendrogram_buffers_sized_by_edges_witness :
    StageCall.build_dendrogram_host [0, 2, 1] [1, 3, 2] [1, 1, 9] 3 6 3 3 ∈
      four_point_run.calls ∧
    ((∃ indptr indices pw, (spec_stages line_collaborators).build_sorted_mst indptr indices
        pw 4 indices.length = Except.ok ([0, 2, 1], [1, 3, 2], [1, 1, 9])) ∧
      3 = [0, 2, 1].length ∧ 6 = 2 * 3 ∧ 3 = 3 ∧ 3 = 3 ∧
      ([0, 2, 1].length = 4 - 1 → 3 = 4 - 1 ∧ 6 = 2 * (4 - 1))) :=
  ⟨by decide,
   (dendrogram_buffers_sized_by_edges (spec_stages line_collaborators)
      LinkageDistance.PAIRWISE [0, 1, 10, 11] 4 1 ()
      (fresh_output [9, 9, 9, 9] [7, 7, 7, 7, 7, 7]) 0 2).1
      [0, 2, 1] [1, 3, 2] [1, 1, 9] 3 6 3 3 (by decide)⟩

/-- Claim C10: the check compares n_clusters, converted modulo 2^64, with m. For every
negative n_clusters of type int the converted value is 2^64 + n_clusters, and for every m
the call is rejected exactly when m < 2^64 + n_clusters and enters the pipeline exactly
when m >= 2^64 + n_clusters; in particular every m below 2^64 - 2^31 is rejected. -/
theorem single_linkage_negative_n_clusters {I V M : Type} (S : Stages I V M)
    (d : LinkageDistance) (X : List V) (m n : Nat) (metric : M) (out : linkage_output I)
    (c k : Int) (hk : is_int k) (hneg : k < 0) :
    (int_to_size_t k : Int) = 2 ^ 64 + k ∧
    (rejected (single_linkage S d X m n metric out c k) out ↔
      (m : Int) < (2 : Int) ^ 64 + k) ∧
    (entered_pipeline (single_linkage S d X m n metric out c k) d X m n metric c ↔
      (2 : Int) ^ 64 + k ≤ (m : Int)) ∧
    (m < 2 ^ 64 - 2 ^ 31 → rejected (single_linkage S d X m n metric out c k) out) := by
  have h1 := int_to_size_t_of_neg k hneg hk
  have h2 := hk.1
  unfold INT_MIN at h2
  have key : int_to_size_t k ≤ m ↔ (2 : Int) ^ 64 + k ≤ (m : Int) := by
    rw [← h1]; exact Int.ofNat_le.symm
  have hrej : rejected (single_linkage S d X m n metric out c k) out ↔
      (m : Int) < (2 : Int) ^ 64 + k := by
    constructor
    · intro hr
      by_contra hcon
      exact not_rejected_of_entered _ out d X m n metric c
        (entered_of_assert_passed S d X m n metric out c k (key.mpr (by omega))) hr
    · intro h
      apply rejected_of_assert_failed
      rw [key]; omega
  refine ⟨h1, hrej, ?_, ?_⟩
  · constructor
    · intro he
      by_contra hcon
      exact not_rejected_of_entered _ out d X m n metric c he (hrej.mpr (by omega))
    · intro h
      exact entered_of_assert_passed S d X m n metric out c k (key.mpr h)
  · intro hm
    apply hrej.mpr
    norm_num at h2 hm ⊢
    omega

theorem single_linkage_negative_n_clusters_witness :
    is_int (-1) ∧ (-1 : Int) < 0 ∧ (5 : Nat) < 2 ^ 64 - 2 ^ 31 ∧
    ((2 ^ 64 - 2 : Nat) : Int) < (2 : Int) ^ 64 + (-1) ∧
    (2 : Int) ^ 64 + (-1) ≤ ((2 ^ 64 - 1 : Nat) : Int) ∧ is_size_t (2 ^ 64 - 1) ∧
    rejected (single_linkage (spec_stages line_collaborators) LinkageDistance.PAIRWISE
      [0, 1, 2, 3, 4] 5 1 () (fresh_output [9, 9, 9, 9, 9] []) 0 (-1))
      (fresh_output [9, 9, 9, 9, 9] []) ∧
    rejected (single_linkage (spec_stages line_collaborators) LinkageDistance.PAIRWISE
      [] (2 ^ 64 - 2) 1 () (fresh_output [] []) 0 (-1)) (fresh_output [] []) ∧
    entered_pipeline (single_linkage (spec_stages line_collaborators)
      LinkageDistance.PAIRWISE [] (2 ^ 64 - 1) 1 () (fresh_output [] []) 0 (-1))
      LinkageDistance.PAIRWISE [] (2 ^ 64 - 1) 1 () 0 :=
  ⟨by decide, by decide, by decide, by decide, by decide, by decide,
   (single_linkage_negative_n_clusters (spec_stages line_collaborators)
      LinkageDistance.PAIRWISE [0, 1, 2, 3, 4] 5 1 () (fresh_output [9, 9, 9, 9, 9] []) 0 (-1)
      (by decide) (by decide)).2.2.2 (by decide),
   (single_linkage_negative_n_clusters (spec_stages line_collaborators)
      LinkageDistance.PAIRWISE [] (2 ^ 64 - 2) 1 () (fresh_output [] []) 0 (-1)
      (by decide) (by decide)).2.1.mpr (by decide),
   (single_linkage_negative_n_clusters (spec_stages line_collaborators)
      LinkageDistance.PAIRWISE [] (2 ^ 64 - 1) 1 () (fresh_output [] []) 0 (-1)
      (by decide) (by decide)).2.2.1.mpr (by decide)⟩

end hierarchy
end raft
